import Mathlib

/-!
Verification of the Roaring-Bitmap specification.

The repository ships only its test-suite, benchmark drivers and build shell
under src/; the implementation of the bitmap engine itself (the Cython
extension modules) is not part of the provided sources.  Every definition
below that embeds engine behaviour is therefore modelled from the
specification document (spec.md), constrained where the specification is
silent by the behaviour the unit tests under src/tests/unittests.py assert.
Each such definition carries a doc comment beginning with
"Modelled from the spec:".

The model follows the spec's data model (§3): values are 32-bit naturals,
split as key = v >>> 16 and lo = v &&& 0xFFFF; a Bitmap is an ascending
key-indexed sequence of Blocks; a Block is one of three variants
(positive array, dense 1024×64-bit bitmap, inverted array), the variant
chosen to minimise storage.  Per-variant algorithms (galloping vs. linear
merge, word-wise loops, skip-counting) are performance choices that the
spec itself declares unobservable ("the physical representation is an
implementation choice that must not be observable other than through
performance", §3), so block-level operations are modelled by their
semantic contract: convert to the ordered element list, apply the ordered
set-algebra primitive, rebuild the storage-minimising variant.
-/

namespace Roaring

/-! ### Ordered 16-bit array primitives (spec §4.1)

Ordered scan helpers over arrays of low parts: merge, intersect,
difference, symmetric difference.  Lists stand for the ordered arrays;
all are strictly ascending. -/

/-- Ordered insertion of one low part into an ascending array, keeping
entries distinct. -/
def sinsert (a : Nat) : List Nat → List Nat
  | [] => [a]
  | b :: l =>
      if a < b then a :: b :: l
      else if b < a then b :: sinsert a l
      else b :: l

/-- Modelled from the spec: ordered merge (union) of two strictly
ascending arrays (§4.1 "merge ... into a destination buffer"); the scan
strategy is unobservable (§3), so the merge is modelled as repeated
ordered insertion. -/
def smerge (xs ys : List Nat) : List Nat := xs.foldr sinsert ys

/-- Modelled from the spec: ordered intersection of two ascending arrays. -/
def sinter (xs ys : List Nat) : List Nat :=
  xs.filter (fun a => decide (a ∈ ys))

/-- Modelled from the spec: ordered difference of two ascending arrays. -/
def sdiff (xs ys : List Nat) : List Nat :=
  xs.filter (fun a => !decide (a ∈ ys))

/-- Modelled from the spec: ordered symmetric difference of two ascending
arrays. -/
def ssymdiff (xs ys : List Nat) : List Nat :=
  smerge (sdiff xs ys) (sdiff ys xs)

theorem mem_sinsert {c a : Nat} :
    ∀ l : List Nat, c ∈ sinsert a l ↔ c = a ∨ c ∈ l := by
  intro l
  induction l with
  | nil => simp [sinsert]
  | cons b l ih =>
      rw [sinsert]
      by_cases h1 : a < b
      · rw [if_pos h1]
        simp only [List.mem_cons]
      · rw [if_neg h1]
        by_cases h2 : b < a
        · rw [if_pos h2]
          simp only [List.mem_cons, ih]
          tauto
        · rw [if_neg h2]
          have hab : b = a := by omega
          subst hab
          simp only [List.mem_cons]
          tauto

theorem sinsert_sorted {a : Nat} :
    ∀ {l : List Nat}, l.Pairwise (· < ·) → (sinsert a l).Pairwise (· < ·) := by
  intro l
  induction l with
  | nil =>
      intro _
      simp [sinsert]
  | cons b l ih =>
      intro hs
      rw [List.pairwise_cons] at hs
      rw [sinsert]
      by_cases h1 : a < b
      · rw [if_pos h1, List.pairwise_cons]
        refine ⟨?_, List.pairwise_cons.mpr hs⟩
        intro c hc
        rcases List.mem_cons.mp hc with rfl | hc2
        · exact h1
        · exact lt_trans h1 (hs.1 c hc2)
      · rw [if_neg h1]
        by_cases h2 : b < a
        · rw [if_pos h2, List.pairwise_cons]
          refine ⟨?_, ih hs.2⟩
          intro c hc
          rcases (mem_sinsert l).mp hc with rfl | hc2
          · exact h2
          · exact hs.1 c hc2
        · rw [if_neg h2]
          exact List.pairwise_cons.mpr hs

theorem mem_smerge {a : Nat} :
    ∀ xs ys : List Nat, a ∈ smerge xs ys ↔ a ∈ xs ∨ a ∈ ys := by
  intro xs
  induction xs with
  | nil => intro ys; simp [smerge]
  | cons x xs ih =>
      intro ys
      show a ∈ sinsert x (smerge xs ys) ↔ _
      rw [mem_sinsert, ih ys]
      simp only [List.mem_cons]
      tauto

theorem smerge_sorted :
    ∀ xs ys : List Nat, xs.Pairwise (· < ·) → ys.Pairwise (· < ·) →
      (smerge xs ys).Pairwise (· < ·) := by
  intro xs
  induction xs with
  | nil => intro ys _ hy; exact hy
  | cons x xs ih =>
      intro ys hx hy
      rw [List.pairwise_cons] at hx
      show (sinsert x (smerge xs ys)).Pairwise (· < ·)
      exact sinsert_sorted (ih ys hx.2 hy)

theorem mem_sinter {a : Nat} {xs ys : List Nat} :
    a ∈ sinter xs ys ↔ a ∈ xs ∧ a ∈ ys := by
  simp [sinter]

theorem mem_sdiff {a : Nat} {xs ys : List Nat} :
    a ∈ sdiff xs ys ↔ a ∈ xs ∧ a ∉ ys := by
  simp [sdiff]

theorem mem_ssymdiff {a : Nat} {xs ys : List Nat} :
    a ∈ ssymdiff xs ys ↔ (a ∈ xs ∧ a ∉ ys) ∨ (a ∈ ys ∧ a ∉ xs) := by
  rw [ssymdiff, mem_smerge, mem_sdiff, mem_sdiff]

theorem sinter_sorted {xs ys : List Nat} (h : xs.Pairwise (· < ·)) :
    (sinter xs ys).Pairwise (· < ·) := h.filter _

theorem sdiff_sorted {xs ys : List Nat} (h : xs.Pairwise (· < ·)) :
    (sdiff xs ys).Pairwise (· < ·) := h.filter _

theorem ssymdiff_sorted {xs ys : List Nat} (hx : xs.Pairwise (· < ·))
    (hy : ys.Pairwise (· < ·)) : (ssymdiff xs ys).Pairwise (· < ·) :=
  smerge_sorted _ _ (sdiff_sorted hx) (sdiff_sorted hy)

/-- Two strictly ascending lists with the same members are equal. -/
theorem sorted_eq_of_mem_iff {xs ys : List Nat}
    (hx : xs.Pairwise (· < ·)) (hy : ys.Pairwise (· < ·))
    (h : ∀ a, a ∈ xs ↔ a ∈ ys) : xs = ys := by
  have hnx : xs.Nodup := hx.imp Nat.ne_of_lt
  have hny : ys.Nodup := hy.imp Nat.ne_of_lt
  have hperm : xs.Perm ys := (List.perm_ext_iff_of_nodup hnx hny).mpr h
  exact hperm.eq_of_sorted (fun a b ha hb h1 h2 => le_antisymm h1 h2)
    (List.Pairwise.imp (fun h => le_of_lt h) hx)
    (List.Pairwise.imp (fun h => le_of_lt h) hy)

/-! ### Block primitives (spec §4.1): population count, dense payloads -/

/-- Modelled from the spec: portable population count of one machine word
(§4.1 "Population count"; §9 "a portable fallback is required"). -/
def popcount : Nat → Nat
  | 0 => 0
  | n + 1 => (n + 1) % 2 + popcount ((n + 1) / 2)
decreasing_by exact Nat.div_lt_self (Nat.succ_pos n) (by omega)

theorem popcount_pos_eq {n : Nat} (h : 0 < n) :
    popcount n = n % 2 + popcount (n / 2) := by
  match n, h with
  | m + 1, _ => rw [popcount]

/-- The population count of a word below 2^k counts its set bits below k. -/
theorem popcount_eq_length_filter :
    ∀ (k n : Nat), n < 2 ^ k →
      popcount n = ((List.range k).filter (fun i => n.testBit i)).length := by
  intro k
  induction k with
  | zero =>
      intro n hn
      have hn0 : n = 0 := by omega
      subst hn0
      simp [popcount]
  | succ k ih =>
      intro n hn
      rcases Nat.eq_zero_or_pos n with h0 | hpos
      · subst h0; simp [popcount]
      · rw [popcount_pos_eq hpos]
        have hdiv : n / 2 < 2 ^ k := by
          have : 2 ^ (k + 1) = 2 ^ k * 2 := by ring
          omega
        rw [ih (n / 2) hdiv]
        rw [List.range_succ_eq_map]
        rw [List.filter_cons]
        have hmap : (List.map Nat.succ (List.range k)).filter
              (fun i => n.testBit i)
            = List.map Nat.succ ((List.range k).filter
              (fun i => (n / 2).testBit i)) := by
          rw [List.filter_map]
          congr 1
          apply List.filter_congr
          intro i _
          simp [Function.comp, Nat.testBit_succ]
        by_cases hb : n.testBit 0
        · have h1 : n % 2 = 1 := by
            have := Nat.testBit_zero n
            rw [hb] at this
            exact of_decide_eq_true this.symm
          simp only [hb, if_pos]
          rw [hmap]
          simp [h1]
          omega
        · have h1 : n % 2 = 0 := by
            have := Nat.testBit_zero n
            rw [eq_false_of_ne_true hb] at this
            have h2 : ¬ (n % 2 = 1) := of_decide_eq_false this.symm
            omega
          simp only [hb]
          rw [if_neg (by simp)]
          rw [hmap]
          simp [h1]

/-- Modelled from the spec: the ordered element list encoded by a dense
1024×64-bit payload, word by word, starting at value `base` (§3 "bit i set
⇔ lo=i present"). -/
def denseList : List Nat → Nat → List Nat
  | [], _ => []
  | w :: ws, base =>
      ((List.range 64).filter (fun i => w.testBit i)).map (fun i => base + i)
        ++ denseList ws (base + 64)

theorem mem_denseList {a : Nat} :
    ∀ (ws : List Nat) (base : Nat),
      a ∈ denseList ws base ↔
        ∃ j, j < ws.length ∧ ∃ i, i < 64 ∧
          a = base + 64 * j + i ∧ (ws.getD j 0).testBit i := by
  intro ws
  induction ws with
  | nil => intro base; simp [denseList]
  | cons w ws ih =>
      intro base
      simp only [denseList, List.mem_append, List.mem_map, List.mem_filter,
        List.mem_range, ih]
      constructor
      · rintro (⟨i, ⟨hi, hb⟩, rfl⟩ | ⟨j, hj, i, hi, rfl, hb⟩)
        · exact ⟨0, by simp, i, hi, by omega, by simpa using hb⟩
        · exact ⟨j + 1, by simp; omega, i, hi, by omega, by simpa using hb⟩
      · rintro ⟨j, hj, i, hi, rfl, hb⟩
        match j with
        | 0 =>
            left
            exact ⟨i, ⟨hi, by simpa using hb⟩, by omega⟩
        | j + 1 =>
            right
            refine ⟨j, by simpa using hj, i, hi, by omega, by simpa using hb⟩

theorem denseList_sorted :
    ∀ (ws : List Nat) (base : Nat), (denseList ws base).Pairwise (· < ·) := by
  intro ws
  induction ws with
  | nil => intro base; simp [denseList]
  | cons w ws ih =>
      intro base
      rw [denseList, List.pairwise_append]
      refine ⟨?_, ih (base + 64), ?_⟩
      · rw [List.pairwise_map]
        apply List.Pairwise.filter
        exact
          (List.pairwise_lt_range 64).imp (fun h => by omega)
      · intro x hx y hy
        rcases List.mem_map.mp hx with ⟨i, hi, rfl⟩
        have hi64 : i < 64 := List.mem_range.mp (List.mem_filter.mp hi).1
        rcases (mem_denseList _ _).mp hy with ⟨j, _, i2, _, rfl, _⟩
        omega

theorem length_denseList :
    ∀ (ws : List Nat) (base : Nat), (∀ w ∈ ws, w < 2 ^ 64) →
      (denseList ws base).length = (ws.map popcount).sum := by
  intro ws
  induction ws with
  | nil => intro base _; simp [denseList]
  | cons w ws ih =>
      intro base hw
      rw [denseList, List.length_append, List.length_map, List.map_cons,
        List.sum_cons, ih (base + 64) (fun x hx => hw x (List.mem_cons_of_mem _ hx)),
        popcount_eq_length_filter 64 w (hw w (List.mem_cons_self w ws))]

/-! ### Dense payload construction -/

/-- Bit-position membership in a dense word payload: bit `v % 64` of word
`v / 64`. -/
def wordsMem (ws : List Nat) (v : Nat) : Bool :=
  (ws.getD (v / 64) 0).testBit (v % 64)

/-- Modelled from the spec: set bit `lo` in a dense 1024-word payload
(§9 "build dense payloads directly (bit-set ...)"). -/
def bitSet (ws : List Nat) (lo : Nat) : List Nat :=
  ws.set (lo / 64) ((ws.getD (lo / 64) 0) ||| (1 <<< (lo % 64)))

/-- Modelled from the spec: the dense 1024×64-bit payload with exactly the
bits of `es` set. -/
def buildWords (es : List Nat) : List Nat :=
  es.foldl bitSet (List.replicate 1024 0)

theorem getD_lt_of_forall {ws : List Nat} {j : Nat}
    (h : ∀ w ∈ ws, w < 2 ^ 64) : ws.getD j 0 < 2 ^ 64 := by
  by_cases hj : j < ws.length
  · rw [List.getD_eq_getElem?_getD, List.getElem?_eq_getElem hj]
    exact h _ (List.getElem_mem hj)
  · rw [List.getD_eq_getElem?_getD, List.getElem?_eq_none (by omega)]
    simp

theorem length_bitSet {ws : List Nat} {lo : Nat} :
    (bitSet ws lo).length = ws.length := List.length_set ws _ _

theorem bitSet_bound {ws : List Nat} {lo : Nat}
    (h : ∀ w ∈ ws, w < 2 ^ 64) (hlo : lo < 65536) :
    ∀ w ∈ bitSet ws lo, w < 2 ^ 64 := by
  intro w hw
  rcases List.mem_or_eq_of_mem_set hw with hmem | rfl
  · exact h w hmem
  · apply Nat.or_lt_two_pow (getD_lt_of_forall h)
    rw [Nat.one_shiftLeft]
    exact Nat.pow_lt_pow_right (by omega) (by omega)

theorem wordsMem_bitSet {ws : List Nat} {lo v : Nat}
    (hlen : ws.length = 1024) (hlo : lo < 65536) (hv : v < 65536) :
    (wordsMem (bitSet ws lo) v = true ↔ v = lo ∨ wordsMem ws v = true) := by
  have hlo64 : lo / 64 < ws.length := by omega
  by_cases h : v / 64 = lo / 64
  · unfold wordsMem bitSet
    rw [h, List.getD_eq_getElem?_getD, List.getElem?_set_self hlo64]
    simp only [Option.getD_some, Nat.testBit_lor, Nat.one_shiftLeft,
      Nat.testBit_two_pow]
    rw [Bool.or_eq_true]
    constructor
    · rintro (hm | hm)
      · right; exact hm
      · left; have := of_decide_eq_true hm; omega
    · rintro (rfl | hm)
      · right; simp
      · left; exact hm
  · unfold wordsMem bitSet
    rw [List.getD_eq_getElem?_getD, List.getElem?_set_ne (fun hne => h hne.symm),
      ← List.getD_eq_getElem?_getD]
    have hne : v ≠ lo := fun hh => h (by rw [hh])
    constructor
    · intro hm; right; exact hm
    · rintro (rfl | hm)
      · exact absurd rfl hne
      · exact hm

theorem foldl_bitSet_spec :
    ∀ (es ws : List Nat), ws.length = 1024 → (∀ w ∈ ws, w < 2 ^ 64) →
      (∀ x ∈ es, x < 65536) →
      (es.foldl bitSet ws).length = 1024 ∧
      (∀ w ∈ es.foldl bitSet ws, w < 2 ^ 64) ∧
      (∀ v, v < 65536 →
        (wordsMem (es.foldl bitSet ws) v = true ↔ v ∈ es ∨ wordsMem ws v = true)) := by
  intro es
  induction es with
  | nil =>
      intro ws h1 h2 _
      exact ⟨h1, h2, fun v _ => by simp⟩
  | cons x es ih =>
      intro ws h1 h2 h3
      have hx : x < 65536 := h3 x (List.mem_cons_self x es)
      have h1b : (bitSet ws x).length = 1024 := by rw [length_bitSet]; exact h1
      have h2b : ∀ w ∈ bitSet ws x, w < 2 ^ 64 := bitSet_bound h2 hx
      have h3b : ∀ y ∈ es, y < 65536 := fun y hy => h3 y (List.mem_cons_of_mem _ hy)
      obtain ⟨ha, hb, hc⟩ := ih (bitSet ws x) h1b h2b h3b
      refine ⟨ha, hb, fun v hv => ?_⟩
      rw [List.foldl_cons] at *
      rw [hc v hv, wordsMem_bitSet h1 hx hv]
      simp only [List.mem_cons]
      tauto

theorem buildWords_spec {es : List Nat} (hb : ∀ x ∈ es, x < 65536) :
    (buildWords es).length = 1024 ∧
    (∀ w ∈ buildWords es, w < 2 ^ 64) ∧
    (∀ v, v < 65536 → (wordsMem (buildWords es) v = true ↔ v ∈ es)) := by
  have hinit : ∀ v : Nat, wordsMem (List.replicate 1024 0) v = false := by
    intro v
    unfold wordsMem
    rw [List.getD_eq_getElem?_getD, List.getElem?_replicate]
    by_cases h : v / 64 < 1024 <;> simp [h]
  obtain ⟨h1, h2, h3⟩ := foldl_bitSet_spec es (List.replicate 1024 0)
    (List.length_replicate 1024 0) (by intro w hw; rw [List.eq_of_mem_replicate hw]; positivity)
    hb
  refine ⟨h1, h2, fun v hv => ?_⟩
  rw [buildWords, h3 v hv, hinit v]
  simp

theorem mem_denseList_iff_wordsMem {ws : List Nat} (hlen : ws.length = 1024)
    {a : Nat} : a ∈ denseList ws 0 ↔ a < 65536 ∧ wordsMem ws a = true := by
  rw [mem_denseList]
  constructor
  · rintro ⟨j, hj, i, hi, rfl, hbit⟩
    rw [hlen] at hj
    refine ⟨by omega, ?_⟩
    unfold wordsMem
    have hdiv : (0 + 64 * j + i) / 64 = j := by omega
    have hmod : (0 + 64 * j + i) % 64 = i := by omega
    rw [hdiv, hmod]
    exact hbit
  · rintro ⟨ha, hm⟩
    refine ⟨a / 64, by omega, a % 64, by omega, by omega, hm⟩

/-! ### Block (spec §3, §4.2) -/

/-- Modelled from the spec (§3 Block): a Block stores the subset of values
sharing one key, in one of three variants: positive array of present low
parts, dense 1024×64-bit bitmap, or inverted array of absent low parts. -/
inductive Block where
  | positive (elems : List Nat)
  | dense (words : List Nat)
  | inverted (absent : List Nat)
deriving DecidableEq

/-- The ordered list of low parts present in a Block. -/
def Block.toList : Block → List Nat
  | .positive es => es
  | .dense ws => denseList ws 0
  | .inverted ab => sdiff (List.range 65536) ab

/-- Modelled from the spec (§3 Invariants): the recorded cardinality of a
Block, recomputed from the payload — array length for the positive
variant, summed population count for the dense variant, 65536 minus the
absentee count for the inverted variant. -/
def Block.cardinality : Block → Nat
  | .positive es => es.length
  | .dense ws => (ws.map popcount).sum
  | .inverted ab => 65536 - ab.length

/-- Modelled from the spec (§4.2): per-variant membership test. -/
def Block.contains (b : Block) (lo : Nat) : Bool :=
  match b with
  | .positive es => decide (lo ∈ es)
  | .dense ws => wordsMem ws lo
  | .inverted ab => !decide (lo ∈ ab)

/-- Modelled from the spec (§3 variant choice, §4.2 conversion rules):
the storage-minimising Block holding the strictly ascending element list
`es` — positive array when the cardinality is at most 4096, inverted
array when it exceeds 61440, dense bitmap otherwise. -/
def mkBlock (es : List Nat) : Block :=
  if es.length ≤ 4096 then .positive es
  else if es.length ≤ 61440 then .dense (buildWords es)
  else .inverted (sdiff (List.range 65536) es)

/-- Modelled from the spec (§3 Invariants): per-block invariants — arrays
strictly ascending with 16-bit entries, cardinality within the bounds of
the chosen variant. -/
def Block.wf : Block → Prop
  | .positive es => es.Pairwise (· < ·) ∧ (∀ a ∈ es, a < 65536) ∧ es.length ≤ 4096
  | .dense ws => ws.length = 1024 ∧ (∀ w ∈ ws, w < 2 ^ 64) ∧
      4096 < (ws.map popcount).sum ∧ (ws.map popcount).sum ≤ 61440
  | .inverted ab => ab.Pairwise (· < ·) ∧ (∀ a ∈ ab, a < 65536) ∧ ab.length < 4096

instance instDecidableBlockWf : (b : Block) → Decidable b.wf
  | .positive es => inferInstanceAs (Decidable (es.Pairwise (· < ·) ∧
      (∀ a ∈ es, a < 65536) ∧ es.length ≤ 4096))
  | .dense ws => inferInstanceAs (Decidable (ws.length = 1024 ∧
      (∀ w ∈ ws, w < 2 ^ 64) ∧
      4096 < (ws.map popcount).sum ∧ (ws.map popcount).sum ≤ 61440))
  | .inverted ab => inferInstanceAs (Decidable (ab.Pairwise (· < ·) ∧
      (∀ a ∈ ab, a < 65536) ∧ ab.length < 4096))

/-- The complement filter over the full 16-bit range recovers a sorted
bounded list. -/
theorem range_filter_mem_eq {es : List Nat} (hs : es.Pairwise (· < ·))
    (hb : ∀ a ∈ es, a < 65536) :
    (List.range 65536).filter (fun a => decide (a ∈ es)) = es := by
  apply sorted_eq_of_mem_iff
  · exact (List.pairwise_lt_range 65536).filter _
  · exact hs
  · intro a
    simp only [List.mem_filter, List.mem_range, decide_eq_true_eq]
    exact ⟨fun h => h.2, fun h => ⟨hb a h, h⟩⟩

theorem length_le_of_sorted_bounded {es : List Nat} (hs : es.Pairwise (· < ·))
    (hb : ∀ a ∈ es, a < 65536) : es.length ≤ 65536 := by
  have h := range_filter_mem_eq hs hb
  calc es.length = ((List.range 65536).filter (fun a => decide (a ∈ es))).length := by
        rw [h]
    _ ≤ (List.range 65536).length := List.length_filter_le _ _
    _ = 65536 := List.length_range 65536

theorem length_filter_add_length_filter_neg {α : Type} {p : α → Bool}
    (l : List α) :
    (l.filter p).length + (l.filter (fun a => !p a)).length = l.length := by
  induction l with
  | nil => rfl
  | cons x l ih =>
      by_cases h : p x = true <;>
        simp only [List.filter_cons, h, Bool.not_true, Bool.not_false,
          if_pos, if_neg, Bool.false_eq_true, not_false_iff, List.length_cons,
          ite_true, ite_false] <;> omega

theorem length_sdiff_range {es : List Nat} (hs : es.Pairwise (· < ·))
    (hb : ∀ a ∈ es, a < 65536) :
    (sdiff (List.range 65536) es).length = 65536 - es.length := by
  have hsplit := length_filter_add_length_filter_neg
    (p := fun a => decide (a ∈ es)) (List.range 65536)
  rw [range_filter_mem_eq hs hb, List.length_range] at hsplit
  unfold sdiff
  omega

theorem buildWords_denseList {es : List Nat} (hs : es.Pairwise (· < ·))
    (hb : ∀ a ∈ es, a < 65536) : denseList (buildWords es) 0 = es := by
  obtain ⟨h1, _, h3⟩ := buildWords_spec hb
  apply sorted_eq_of_mem_iff (denseList_sorted _ _) hs
  intro a
  rw [mem_denseList_iff_wordsMem h1]
  constructor
  · rintro ⟨ha, hm⟩
    exact (h3 a ha).mp hm
  · intro hm
    exact ⟨hb a hm, (h3 a (hb a hm)).mpr hm⟩

theorem sdiff_range_sdiff_range {es : List Nat} (hs : es.Pairwise (· < ·))
    (hb : ∀ a ∈ es, a < 65536) :
    sdiff (List.range 65536) (sdiff (List.range 65536) es) = es := by
  apply sorted_eq_of_mem_iff
  · exact (List.pairwise_lt_range 65536).filter _
  · exact hs
  · intro a
    rw [mem_sdiff, mem_sdiff]
    simp only [List.mem_range]
    constructor
    · rintro ⟨ha, hn⟩
      by_contra hmem
      exact hn ⟨ha, hmem⟩
    · intro h
      exact ⟨hb a h, fun hc => hc.2 h⟩

/-- The workhorse: `mkBlock` represents exactly its input list. -/
theorem mkBlock_toList {es : List Nat} (hs : es.Pairwise (· < ·))
    (hb : ∀ a ∈ es, a < 65536) : (mkBlock es).toList = es := by
  unfold mkBlock
  by_cases h1 : es.length ≤ 4096
  · rw [if_pos h1]; rfl
  · rw [if_neg h1]
    by_cases h2 : es.length ≤ 61440
    · rw [if_pos h2]
      exact buildWords_denseList hs hb
    · rw [if_neg h2]
      exact sdiff_range_sdiff_range hs hb

theorem mkBlock_wf {es : List Nat} (hs : es.Pairwise (· < ·))
    (hb : ∀ a ∈ es, a < 65536) : (mkBlock es).wf := by
  unfold mkBlock
  by_cases h1 : es.length ≤ 4096
  · rw [if_pos h1]
    exact ⟨hs, hb, h1⟩
  · rw [if_neg h1]
    by_cases h2 : es.length ≤ 61440
    · rw [if_pos h2]
      obtain ⟨hl, hw, _⟩ := buildWords_spec hb
      have hsum : ((buildWords es).map popcount).sum = es.length := by
        rw [← length_denseList _ 0 hw, buildWords_denseList hs hb]
      exact ⟨hl, hw, by omega, by omega⟩
    · rw [if_neg h2]
      refine ⟨(List.pairwise_lt_range 65536).filter _, ?_, ?_⟩
      · intro a ha
        have := (mem_sdiff.mp ha).1
        simpa using this
      · rw [length_sdiff_range hs hb]
        have := length_le_of_sorted_bounded hs hb
        omega

theorem mkBlock_cardinality {es : List Nat} (hs : es.Pairwise (· < ·))
    (hb : ∀ a ∈ es, a < 65536) : (mkBlock es).cardinality = es.length := by
  unfold mkBlock
  by_cases h1 : es.length ≤ 4096
  · rw [if_pos h1]; rfl
  · rw [if_neg h1]
    by_cases h2 : es.length ≤ 61440
    · rw [if_pos h2]
      show ((buildWords es).map popcount).sum = es.length
      obtain ⟨_, hw, _⟩ := buildWords_spec hb
      rw [← length_denseList _ 0 hw, buildWords_denseList hs hb]
    · rw [if_neg h2]
      show 65536 - (sdiff (List.range 65536) es).length = es.length
      rw [length_sdiff_range hs hb]
      have := length_le_of_sorted_bounded hs hb
      omega

theorem Block.toList_sorted {b : Block} (h : b.wf) :
    b.toList.Pairwise (· < ·) := by
  match b with
  | .positive es => exact h.1
  | .dense ws => exact denseList_sorted _ _
  | .inverted ab =>
      simp only [Block.toList]
      exact sdiff_sorted (List.pairwise_lt_range 65536)

theorem Block.toList_bounded {b : Block} (h : b.wf) :
    ∀ a ∈ b.toList, a < 65536 := by
  match b with
  | .positive es => exact h.2.1
  | .dense ws =>
      intro a ha
      obtain ⟨hl, _, _⟩ := h
      rcases (mem_denseList _ _).mp ha with ⟨j, hj, i, hi, rfl, _⟩
      rw [hl] at hj
      omega
  | .inverted ab =>
      intro a ha
      have := (mem_sdiff.mp ha).1
      simpa using this

theorem Block.cardinality_eq_length {b : Block} (h : b.wf) :
    b.cardinality = b.toList.length := by
  match b with
  | .positive es => rfl
  | .dense ws =>
      obtain ⟨hl, hw, _⟩ := h
      show (ws.map popcount).sum = (denseList ws 0).length
      rw [length_denseList _ 0 hw]
  | .inverted ab =>
      obtain ⟨hs, hb, _⟩ := h
      show 65536 - ab.length = (sdiff (List.range 65536) ab).length
      rw [length_sdiff_range hs hb]

theorem Block.contains_iff_mem_toList {b : Block} (h : b.wf) {lo : Nat}
    (hlo : lo < 65536) : b.contains lo = true ↔ lo ∈ b.toList := by
  match b with
  | .positive es =>
      show decide (lo ∈ es) = true ↔ lo ∈ es
      exact decide_eq_true_iff
  | .dense ws =>
      obtain ⟨hl, _, _⟩ := h
      show wordsMem ws lo = true ↔ _
      rw [Block.toList, mem_denseList_iff_wordsMem hl]
      exact ⟨fun hm => ⟨hlo, hm⟩, fun hm => hm.2⟩
  | .inverted ab =>
      show (!decide (lo ∈ ab)) = true ↔ _
      rw [Block.toList, mem_sdiff]
      simp [hlo]

/-! ### Block-level binary operations (spec §4.2)

The spec prescribes nine per-variant-pair routines per operator, but
declares the storage choice unobservable except through performance, so
each routine is modelled by its semantic contract: ordered set algebra on
the element lists, rebuilt into the storage-minimising variant. -/

/-- Modelled from the spec (§4.2): block union. -/
def Block.opOr (a b : Block) : Block := mkBlock (smerge a.toList b.toList)

/-- Modelled from the spec (§4.2): block intersection. -/
def Block.opAnd (a b : Block) : Block := mkBlock (sinter a.toList b.toList)

/-- Modelled from the spec (§4.2): block symmetric difference. -/
def Block.opXor (a b : Block) : Block := mkBlock (ssymdiff a.toList b.toList)

/-- Modelled from the spec (§4.2): block difference. -/
def Block.opSub (a b : Block) : Block := mkBlock (sdiff a.toList b.toList)

/-! ### Bitmap (spec §3, §4.3) -/

/-- Modelled from the spec (§3 Bitmap): an ascending sequence of distinct
keys, each paired with the non-empty Block of low parts stored under it. -/
structure RoaringBitmap where
  blocks : List (Nat × Block)
deriving DecidableEq

/-- Bitmap invariants (§3): keys strictly ascending 16-bit values, every
referenced Block well-formed and non-empty. -/
def blocksWf (bs : List (Nat × Block)) : Prop :=
  (bs.map Prod.fst).Pairwise (· < ·) ∧
  ∀ p ∈ bs, p.1 < 65536 ∧ (p.2 : Block).wf ∧ (p.2 : Block).cardinality ≠ 0

instance instDecidableBlocksWf (bs : List (Nat × Block)) :
    Decidable (blocksWf bs) :=
  inferInstanceAs (Decidable ((bs.map Prod.fst).Pairwise (· < ·) ∧
    ∀ p ∈ bs, p.1 < 65536 ∧ (p.2 : Block).wf ∧ (p.2 : Block).cardinality ≠ 0))

def RoaringBitmap.wf (rb : RoaringBitmap) : Prop := blocksWf rb.blocks

instance instDecidableRBWf (rb : RoaringBitmap) : Decidable rb.wf :=
  inferInstanceAs (Decidable (blocksWf rb.blocks))

/-- The ascending list of all values of a block sequence: each low part
recombined with its key (§3: a value decomposes as `key · 2^16 + lo`). -/
def blocksToList (bs : List (Nat × Block)) : List Nat :=
  (bs.map (fun p => p.2.toList.map (fun lo => p.1 * 65536 + lo))).flatten

/-- The ascending element list of a bitmap. -/
def RoaringBitmap.toList (rb : RoaringBitmap) : List Nat :=
  blocksToList rb.blocks

/-- The element set of a bitmap. -/
def RoaringBitmap.toSet (rb : RoaringBitmap) : Set Nat :=
  (fun v => v ∈ rb.toList)

/-- Cardinality of a bitmap: the number of stored values. -/
def RoaringBitmap.cardinality (rb : RoaringBitmap) : Nat :=
  rb.toList.length

/-- The block stored under a key, or the empty block. -/
def blockAt : List (Nat × Block) → Nat → Block
  | [], _ => Block.positive []
  | (k, b) :: rest, key => if key = k then b else blockAt rest key

/-- Modelled from the spec (§4.3): membership looks up the block under the
value's high 16 bits and tests the low 16 bits in it. -/
def RoaringBitmap.contains (rb : RoaringBitmap) (v : Nat) : Bool :=
  (blockAt rb.blocks (v >>> 16)).contains (v &&& 65535)

theorem shiftRight16_eq (v : Nat) : v >>> 16 = v / 65536 := by
  rw [Nat.shiftRight_eq_div_pow]

theorem and65535_eq (v : Nat) : v &&& 65535 = v % 65536 := by
  have h := Nat.and_pow_two_sub_one_eq_mod v 16
  norm_num at h
  exact h

theorem blockAt_of_mem {bs : List (Nat × Block)} {k : Nat} {b : Block}
    (hs : (bs.map Prod.fst).Pairwise (· < ·)) (hmem : (k, b) ∈ bs) :
    blockAt bs k = b := by
  induction bs with
  | nil => cases hmem
  | cons p rest ih =>
      obtain ⟨k0, b0⟩ := p
      rw [List.map_cons, List.pairwise_cons] at hs
      rcases List.mem_cons.mp hmem with heq | hmem2
      · injection heq with hk hb
        subst hk; subst hb
        simp [blockAt]
      · have hk : k ≠ k0 := by
          intro hkk
          subst hkk
          have := hs.1 k (List.mem_map.mpr ⟨(k, b), hmem2, rfl⟩)
          omega
        rw [blockAt, if_neg hk]
        exact ih hs.2 hmem2

theorem blockAt_eq_default_or_mem (bs : List (Nat × Block)) (k : Nat) :
    blockAt bs k = Block.positive [] ∨ (k, blockAt bs k) ∈ bs := by
  induction bs with
  | nil => left; rfl
  | cons p rest ih =>
      obtain ⟨k0, b0⟩ := p
      by_cases hk : k = k0
      · right
        rw [blockAt, if_pos hk, hk]
        exact List.mem_cons_self _ _
      · rw [blockAt, if_neg hk]
        rcases ih with h | h
        · left; exact h
        · right; exact List.mem_cons_of_mem _ h

theorem blockAt_of_forall_ne {bs : List (Nat × Block)} {k : Nat}
    (h : ∀ p ∈ bs, k ≠ p.1) : blockAt bs k = Block.positive [] := by
  rcases blockAt_eq_default_or_mem bs k with hd | hm
  · exact hd
  · exact absurd rfl (h _ hm)

theorem mem_blocksToList {v : Nat} {bs : List (Nat × Block)} :
    v ∈ blocksToList bs ↔
      ∃ k b lo, (k, b) ∈ bs ∧ lo ∈ b.toList ∧ v = k * 65536 + lo := by
  unfold blocksToList
  rw [List.mem_flatten]
  constructor
  · rintro ⟨l, hl, hv⟩
    rcases List.mem_map.mp hl with ⟨⟨k, b⟩, hp, rfl⟩
    rcases List.mem_map.mp hv with ⟨lo, hlo, rfl⟩
    exact ⟨k, b, lo, hp, hlo, rfl⟩
  · rintro ⟨k, b, lo, hp, hlo, rfl⟩
    refine ⟨b.toList.map (fun lo => k * 65536 + lo), ?_, ?_⟩
    · exact List.mem_map.mpr ⟨(k, b), hp, rfl⟩
    · exact List.mem_map.mpr ⟨lo, hlo, rfl⟩

theorem mem_blocksToList_iff_blockAt {bs : List (Nat × Block)}
    (hwf : blocksWf bs) {v : Nat} :
    v ∈ blocksToList bs ↔ v % 65536 ∈ (blockAt bs (v / 65536)).toList := by
  obtain ⟨hs, hall⟩ := hwf
  rw [mem_blocksToList]
  constructor
  · rintro ⟨k, b, lo, hp, hlo, rfl⟩
    have hbwf := (hall _ hp).2.1
    have hlo65536 : lo < 65536 := Block.toList_bounded hbwf lo hlo
    have hdiv : (k * 65536 + lo) / 65536 = k := by omega
    have hmod : (k * 65536 + lo) % 65536 = lo := by omega
    rw [hdiv, hmod, blockAt_of_mem hs hp]
    exact hlo
  · intro h
    rcases blockAt_eq_default_or_mem bs (v / 65536) with hd | hm
    · rw [hd] at h
      cases h
    · exact ⟨v / 65536, blockAt bs (v / 65536), v % 65536, hm, h, by omega⟩

theorem blocksToList_sorted {bs : List (Nat × Block)} (hwf : blocksWf bs) :
    (blocksToList bs).Pairwise (· < ·) := by
  obtain ⟨hs, hall⟩ := hwf
  unfold blocksToList
  rw [List.pairwise_flatten]
  refine ⟨?_, ?_⟩
  · intro l hl
    rcases List.mem_map.mp hl with ⟨⟨k, b⟩, hp, rfl⟩
    rw [List.pairwise_map]
    exact (Block.toList_sorted (hall _ hp).2.1).imp (fun h => by omega)
  · rw [List.pairwise_map]
    rw [List.pairwise_map] at hs
    refine hs.imp_of_mem ?_
    intro p q hp hq hlt x hx y hy
    rcases List.mem_map.mp hx with ⟨lo, hlo, rfl⟩
    rcases List.mem_map.mp hy with ⟨lo2, hlo2, rfl⟩
    have h1 : lo < 65536 := Block.toList_bounded (hall _ hp).2.1 lo hlo
    omega

theorem blocksToList_bounded {bs : List (Nat × Block)} (hwf : blocksWf bs) :
    ∀ v ∈ blocksToList bs, v < 4294967296 := by
  obtain ⟨hs, hall⟩ := hwf
  intro v hv
  rcases mem_blocksToList.mp hv with ⟨k, b, lo, hp, hlo, rfl⟩
  have h1 : k < 65536 := (hall _ hp).1
  have h2 : lo < 65536 := Block.toList_bounded (hall _ hp).2.1 lo hlo
  omega

/-! ### Key-stream merge (spec §4.3 "Binary set algebra") -/

/-- Modelled from the spec (§4.3): binary set algebra is an ordered merge
of the two key streams; for each key present in one or both operands the
block-level routine produces the result block, and keys whose result
would be empty are omitted.  `keepL`/`keepR` say whether a key present in
only the left/right operand contributes its block unchanged (true for
union and symmetric difference on both sides, for difference on the left
only, for intersection on neither). -/
def keyMerge (f : Block → Block → Block) (keepL keepR : Bool) :
    List (Nat × Block) → List (Nat × Block) → List (Nat × Block)
  | [], ys => if keepR then ys else []
  | x :: xs, [] => if keepL then x :: xs else []
  | x :: xs, y :: ys =>
    if x.1 < y.1 then
      (if keepL then [x] else []) ++ keyMerge f keepL keepR xs (y :: ys)
    else if y.1 < x.1 then
      (if keepR then [y] else []) ++ keyMerge f keepL keepR (x :: xs) ys
    else
      (if (f x.2 y.2).cardinality = 0 then [] else [(x.1, f x.2 y.2)])
        ++ keyMerge f keepL keepR xs ys
termination_by xs ys => xs.length + ys.length

theorem blocksWf_nil : blocksWf [] := ⟨List.Pairwise.nil, by simp⟩

theorem blocksWf_cons_iff {k : Nat} {b : Block} {bs : List (Nat × Block)} :
    blocksWf ((k, b) :: bs) ↔
      (∀ p ∈ bs, k < p.1) ∧ k < 65536 ∧ b.wf ∧ b.cardinality ≠ 0 ∧
        blocksWf bs := by
  unfold blocksWf
  rw [List.map_cons, List.pairwise_cons]
  constructor
  · rintro ⟨⟨h1, h2⟩, h3⟩
    have hb := h3 (k, b) (List.mem_cons_self _ _)
    refine ⟨?_, hb.1, hb.2.1, hb.2.2, h2, ?_⟩
    · intro p hp
      exact h1 p.1 (List.mem_map.mpr ⟨p, hp, rfl⟩)
    · intro p hp
      exact h3 p (List.mem_cons_of_mem _ hp)
  · rintro ⟨h1, h2, h3, h4, h5, h6⟩
    refine ⟨⟨?_, h5⟩, ?_⟩
    · intro y hy
      rcases List.mem_map.mp hy with ⟨p, hp, rfl⟩
      exact h1 p hp
    · intro p hp
      rcases List.mem_cons.mp hp with rfl | hp2
      · exact ⟨h2, h3, h4⟩
      · exact h6 p hp2

theorem keyMerge_keys (f : Block → Block → Block) (kL kR : Bool) :
    ∀ xs ys : List (Nat × Block), ∀ p ∈ keyMerge f kL kR xs ys,
      (∃ q ∈ xs, p.1 = q.1) ∨ (∃ q ∈ ys, p.1 = q.1) := by
  intro xs ys
  induction xs, ys using keyMerge.induct f kL kR with
  | case1 ys hkR =>
      intro p hp
      rw [keyMerge, if_pos hkR] at hp
      exact Or.inr ⟨p, hp, rfl⟩
  | case2 ys hkR =>
      intro p hp
      rw [keyMerge, if_neg hkR] at hp
      cases hp
  | case3 x xs hkL =>
      intro p hp
      rw [keyMerge, if_pos hkL] at hp
      exact Or.inl ⟨p, hp, rfl⟩
  | case4 x xs hkL =>
      intro p hp
      rw [keyMerge, if_neg hkL] at hp
      cases hp
  | case5 x xs y ys hlt ih =>
      intro p hp
      rw [keyMerge, if_pos hlt] at hp
      rcases List.mem_append.mp hp with hp1 | hp2
      · split at hp1
        · rcases List.mem_singleton.mp hp1 with rfl
          exact Or.inl ⟨p, List.mem_cons_self _ _, rfl⟩
        · cases hp1
      · rcases ih p hp2 with ⟨q, hq, he⟩ | ⟨q, hq, he⟩
        · exact Or.inl ⟨q, List.mem_cons_of_mem _ hq, he⟩
        · exact Or.inr ⟨q, hq, he⟩
  | case6 x xs y ys hlt hlt2 ih =>
      intro p hp
      rw [keyMerge, if_neg hlt, if_pos hlt2] at hp
      rcases List.mem_append.mp hp with hp1 | hp2
      · split at hp1
        · rcases List.mem_singleton.mp hp1 with rfl
          exact Or.inr ⟨p, List.mem_cons_self _ _, rfl⟩
        · cases hp1
      · rcases ih p hp2 with ⟨q, hq, he⟩ | ⟨q, hq, he⟩
        · exact Or.inl ⟨q, hq, he⟩
        · exact Or.inr ⟨q, List.mem_cons_of_mem _ hq, he⟩
  | case7 x xs y ys hlt hlt2 ih =>
      intro p hp
      rw [keyMerge, if_neg hlt, if_neg hlt2] at hp
      rcases List.mem_append.mp hp with hp1 | hp2
      · split at hp1
        · cases hp1
        · rcases List.mem_singleton.mp hp1 with rfl
          exact Or.inl ⟨x, List.mem_cons_self _ _, rfl⟩
      · rcases ih p hp2 with ⟨q, hq, he⟩ | ⟨q, hq, he⟩
        · exact Or.inl ⟨q, List.mem_cons_of_mem _ hq, he⟩
        · exact Or.inr ⟨q, List.mem_cons_of_mem _ hq, he⟩

theorem keyMerge_wf (f : Block → Block → Block) (kL kR : Bool)
    (hfwf : ∀ a b : Block, a.wf → b.wf → (f a b).wf) :
    ∀ xs ys : List (Nat × Block), blocksWf xs → blocksWf ys →
      blocksWf (keyMerge f kL kR xs ys) := by
  intro xs ys
  induction xs, ys using keyMerge.induct f kL kR with
  | case1 ys hkR =>
      intro _ hy
      rw [keyMerge, if_pos hkR]
      exact hy
  | case2 ys hkR =>
      intro _ _
      rw [keyMerge, if_neg hkR]
      exact blocksWf_nil
  | case3 x xs hkL =>
      intro hx _
      rw [keyMerge, if_pos hkL]
      exact hx
  | case4 x xs hkL =>
      intro _ _
      rw [keyMerge, if_neg hkL]
      exact blocksWf_nil
  | case5 x xs y ys hlt ih =>
      intro hx hy
      obtain ⟨k1, b1⟩ := x
      obtain ⟨k2, b2⟩ := y
      rw [blocksWf_cons_iff] at hx hy
      have hrec := ih hx.2.2.2.2 (blocksWf_cons_iff.mpr hy)
      rw [keyMerge, if_pos hlt]
      split
      · rw [List.singleton_append, blocksWf_cons_iff]
        refine ⟨?_, hx.2.1, hx.2.2.1, hx.2.2.2.1, hrec⟩
        intro p hp
        rcases keyMerge_keys f kL kR _ _ p hp with ⟨q, hq, he⟩ | ⟨q, hq, he⟩
        · rw [he]; exact hx.1 q hq
        · rw [he]
          rcases List.mem_cons.mp hq with rfl | hq2
          · exact hlt
          · exact lt_trans hlt (hy.1 q hq2)
      · rw [List.nil_append]
        exact hrec
  | case6 x xs y ys hlt hlt2 ih =>
      intro hx hy
      obtain ⟨k1, b1⟩ := x
      obtain ⟨k2, b2⟩ := y
      rw [blocksWf_cons_iff] at hx hy
      have hrec := ih (blocksWf_cons_iff.mpr hx) hy.2.2.2.2
      rw [keyMerge, if_neg hlt, if_pos hlt2]
      split
      · rw [List.singleton_append, blocksWf_cons_iff]
        refine ⟨?_, hy.2.1, hy.2.2.1, hy.2.2.2.1, hrec⟩
        intro p hp
        rcases keyMerge_keys f kL kR _ _ p hp with ⟨q, hq, he⟩ | ⟨q, hq, he⟩
        · rw [he]
          rcases List.mem_cons.mp hq with rfl | hq2
          · exact hlt2
          · exact lt_trans hlt2 (hx.1 q hq2)
        · rw [he]; exact hy.1 q hq
      · rw [List.nil_append]
        exact hrec
  | case7 x xs y ys hlt hlt2 ih =>
      intro hx hy
      obtain ⟨k1, b1⟩ := x
      obtain ⟨k2, b2⟩ := y
      rw [blocksWf_cons_iff] at hx hy
      have heq : k1 = k2 := by
        simp only at hlt hlt2
        omega
      have hrec := ih hx.2.2.2.2 hy.2.2.2.2
      rw [keyMerge, if_neg hlt, if_neg hlt2]
      split
      · rw [List.nil_append]
        exact hrec
      · rw [List.singleton_append, blocksWf_cons_iff]
        refine ⟨?_, hx.2.1, hfwf b1 b2 hx.2.2.1 hy.2.2.1, by assumption, hrec⟩
        intro p hp
        rcases keyMerge_keys f kL kR _ _ p hp with ⟨q, hq, he⟩ | ⟨q, hq, he⟩
        · rw [he]; exact hx.1 q hq
        · rw [he]; rw [heq]; exact hy.1 q hq

theorem not_mem_empty_block (lo : Nat) :
    lo ∈ (Block.positive []).toList ↔ False := by
  simp [Block.toList]

/-- Semantic characterisation of the key-stream merge: membership in the
block the merge stores under any key is the boolean combination `g` of
memberships in the operands' blocks under that key. -/
theorem keyMerge_blockAt (f : Block → Block → Block) (kL kR : Bool)
    (g : Prop → Prop → Prop)
    (hfwf : ∀ a b : Block, a.wf → b.wf → (f a b).wf)
    (hf : ∀ a b : Block, a.wf → b.wf → ∀ lo : Nat,
      (lo ∈ (f a b).toList ↔ g (lo ∈ a.toList) (lo ∈ b.toList)))
    (hL : ∀ P : Prop, g P False ↔ (kL = true ∧ P))
    (hR : ∀ P : Prop, g False P ↔ (kR = true ∧ P)) :
    ∀ xs ys : List (Nat × Block), blocksWf xs → blocksWf ys →
      ∀ key lo : Nat,
        (lo ∈ (blockAt (keyMerge f kL kR xs ys) key).toList ↔
          g (lo ∈ (blockAt xs key).toList) (lo ∈ (blockAt ys key).toList)) := by
  have hgFF : g False False ↔ False := by
    rw [hL False]
    simp
  intro xs ys
  induction xs, ys using keyMerge.induct f kL kR with
  | case1 ys hkR =>
      intro _ _ key lo
      rw [keyMerge, if_pos hkR]
      rw [show blockAt ([] : List (Nat × Block)) key = Block.positive [] from rfl,
        not_mem_empty_block, hR]
      simp [hkR]
  | case2 ys hkR =>
      intro _ _ key lo
      rw [keyMerge, if_neg hkR]
      rw [show blockAt ([] : List (Nat × Block)) key = Block.positive [] from rfl,
        not_mem_empty_block, hR]
      simp [hkR]
  | case3 x xs hkL =>
      intro _ _ key lo
      rw [keyMerge, if_pos hkL]
      rw [show blockAt ([] : List (Nat × Block)) key = Block.positive [] from rfl,
        not_mem_empty_block, hL]
      simp [hkL]
  | case4 x xs hkL =>
      intro _ _ key lo
      rw [keyMerge, if_neg hkL]
      rw [show blockAt ([] : List (Nat × Block)) key = Block.positive [] from rfl,
        not_mem_empty_block, hL]
      simp [hkL]
  | case5 x xs y ys hlt ih =>
      intro hx hy key lo
      obtain ⟨k1, b1⟩ := x
      obtain ⟨k2, b2⟩ := y
      have hk : k1 < k2 := hlt
      rw [blocksWf_cons_iff] at hx hy
      have hxtail := hx.2.2.2.2
      have hytail := hy.2.2.2.2
      have hIH := ih hxtail (blocksWf_cons_iff.mpr hy)
      rw [keyMerge, if_pos hlt]
      by_cases hkey : key = k1
      · have hyempty : blockAt ((k2, b2) :: ys) key = Block.positive [] := by
          apply blockAt_of_forall_ne
          intro p hp
          rcases List.mem_cons.mp hp with rfl | hp2
          · show key ≠ k2; omega
          · have := hy.1 p hp2; omega
        have hxhead : blockAt ((k1, b1) :: xs) key = b1 := by
          rw [blockAt, if_pos hkey]
        rw [hyempty, not_mem_empty_block, hL, hxhead]
        split
        · rw [List.singleton_append, blockAt, if_pos hkey]
          simp_all
        · have hxempty : blockAt xs key = Block.positive [] := by
            apply blockAt_of_forall_ne
            intro p hp
            have := hx.1 p hp; omega
          rw [List.nil_append, hIH key lo, hyempty, not_mem_empty_block,
            hxempty, not_mem_empty_block, hL]
          simp_all
      · have hxskip : blockAt ((k1, b1) :: xs) key = blockAt xs key := by
          rw [blockAt, if_neg hkey]
        rw [hxskip]
        split
        · rw [List.singleton_append, blockAt, if_neg hkey]
          exact hIH key lo
        · rw [List.nil_append]
          exact hIH key lo
  | case6 x xs y ys hlt hlt2 ih =>
      intro hx hy key lo
      obtain ⟨k1, b1⟩ := x
      obtain ⟨k2, b2⟩ := y
      have hk : k2 < k1 := hlt2
      rw [blocksWf_cons_iff] at hx hy
      have hxtail := hx.2.2.2.2
      have hytail := hy.2.2.2.2
      have hIH := ih (blocksWf_cons_iff.mpr hx) hytail
      rw [keyMerge, if_neg hlt, if_pos hlt2]
      by_cases hkey : key = k2
      · have hxempty : blockAt ((k1, b1) :: xs) key = Block.positive [] := by
          apply blockAt_of_forall_ne
          intro p hp
          rcases List.mem_cons.mp hp with rfl | hp2
          · show key ≠ k1; omega
          · have := hx.1 p hp2; omega
        have hyhead : blockAt ((k2, b2) :: ys) key = b2 := by
          rw [blockAt, if_pos hkey]
        rw [hxempty, not_mem_empty_block, hR, hyhead]
        split
        · rw [List.singleton_append, blockAt, if_pos hkey]
          simp_all
        · have hyempty : blockAt ys key = Block.positive [] := by
            apply blockAt_of_forall_ne
            intro p hp
            have := hy.1 p hp; omega
          rw [List.nil_append, hIH key lo, hxempty, not_mem_empty_block,
            hyempty, not_mem_empty_block, hR]
          simp_all
      · have hyskip : blockAt ((k2, b2) :: ys) key = blockAt ys key := by
          rw [blockAt, if_neg hkey]
        rw [hyskip]
        split
        · rw [List.singleton_append, blockAt, if_neg hkey]
          exact hIH key lo
        · rw [List.nil_append]
          exact hIH key lo
  | case7 x xs y ys hlt hlt2 ih =>
      intro hx hy key lo
      obtain ⟨k1, b1⟩ := x
      obtain ⟨k2, b2⟩ := y
      have hk1 : ¬ k1 < k2 := hlt
      have hk2 : ¬ k2 < k1 := hlt2
      have heq : k1 = k2 := by omega
      subst heq
      rw [blocksWf_cons_iff] at hx hy
      have hIH := ih hx.2.2.2.2 hy.2.2.2.2
      have hcwf : (f b1 b2).wf := hfwf b1 b2 hx.2.2.1 hy.2.2.1
      rw [keyMerge, if_neg hlt, if_neg hlt2]
      by_cases hkey : key = k1
      · have hxhead : blockAt ((k1, b1) :: xs) key = b1 := by
          rw [blockAt, if_pos hkey]
        have hyhead : blockAt ((k1, b2) :: ys) key = b2 := by
          rw [blockAt, if_pos hkey]
        rw [hxhead, hyhead]
        split
        · rename_i hc0
          have hnil : (f b1 b2).toList = [] := by
            rw [← List.length_eq_zero, ← Block.cardinality_eq_length hcwf]
            exact hc0
          have hxempty : blockAt xs key = Block.positive [] := by
            apply blockAt_of_forall_ne
            intro p hp
            have := hx.1 p hp; omega
          have hyempty : blockAt ys key = Block.positive [] := by
            apply blockAt_of_forall_ne
            intro p hp
            have := hy.1 p hp; omega
          rw [List.nil_append, hIH key lo, hxempty, hyempty,
            not_mem_empty_block, hgFF]
          have hmem := hf b1 b2 hx.2.2.1 hy.2.2.1 lo
          rw [hnil] at hmem
          constructor
          · intro hfalse
            exact hfalse.elim
          · intro hg
            exact absurd (hmem.mpr hg) (by simp)
        · rw [List.singleton_append, blockAt, if_pos hkey]
          exact hf b1 b2 hx.2.2.1 hy.2.2.1 lo
      · have hxskip : blockAt ((k1, b1) :: xs) key = blockAt xs key := by
          rw [blockAt, if_neg hkey]
        have hyskip : blockAt ((k1, b2) :: ys) key = blockAt ys key := by
          rw [blockAt, if_neg hkey]
        rw [hxskip, hyskip]
        split
        · rw [List.nil_append]
          exact hIH key lo
        · rw [List.singleton_append, blockAt, if_neg hkey]
          exact hIH key lo

theorem Block.opOr_wf {a b : Block} (ha : a.wf) (hb : b.wf) :
    (a.opOr b).wf := by
  apply mkBlock_wf (smerge_sorted _ _ (Block.toList_sorted ha) (Block.toList_sorted hb))
  intro x hx
  rcases (mem_smerge _ _).mp hx with h | h
  · exact Block.toList_bounded ha x h
  · exact Block.toList_bounded hb x h

theorem Block.opOr_mem {a b : Block} (ha : a.wf) (hb : b.wf) (lo : Nat) :
    lo ∈ (a.opOr b).toList ↔ lo ∈ a.toList ∨ lo ∈ b.toList := by
  unfold Block.opOr
  rw [mkBlock_toList (smerge_sorted _ _ (Block.toList_sorted ha) (Block.toList_sorted hb))
    (by
      intro x hx
      rcases (mem_smerge _ _).mp hx with h | h
      · exact Block.toList_bounded ha x h
      · exact Block.toList_bounded hb x h)]
  exact mem_smerge _ _

theorem Block.opAnd_wf {a b : Block} (ha : a.wf) (hb : b.wf) :
    (a.opAnd b).wf := by
  apply mkBlock_wf (sinter_sorted (Block.toList_sorted ha))
  intro x hx
  exact Block.toList_bounded ha x (mem_sinter.mp hx).1

theorem Block.opAnd_mem {a b : Block} (ha : a.wf) (hb : b.wf) (lo : Nat) :
    lo ∈ (a.opAnd b).toList ↔ lo ∈ a.toList ∧ lo ∈ b.toList := by
  unfold Block.opAnd
  rw [mkBlock_toList (sinter_sorted (Block.toList_sorted ha))
    (fun x hx => Block.toList_bounded ha x (mem_sinter.mp hx).1)]
  exact mem_sinter

theorem Block.opXor_wf {a b : Block} (ha : a.wf) (hb : b.wf) :
    (a.opXor b).wf := by
  apply mkBlock_wf (ssymdiff_sorted (Block.toList_sorted ha) (Block.toList_sorted hb))
  intro x hx
  rcases mem_ssymdiff.mp hx with ⟨h, _⟩ | ⟨h, _⟩
  · exact Block.toList_bounded ha x h
  · exact Block.toList_bounded hb x h

theorem Block.opXor_mem {a b : Block} (ha : a.wf) (hb : b.wf) (lo : Nat) :
    lo ∈ (a.opXor b).toList ↔
      (lo ∈ a.toList ∧ lo ∉ b.toList) ∨ (lo ∈ b.toList ∧ lo ∉ a.toList) := by
  unfold Block.opXor
  rw [mkBlock_toList (ssymdiff_sorted (Block.toList_sorted ha) (Block.toList_sorted hb))
    (by
      intro x hx
      rcases mem_ssymdiff.mp hx with ⟨h, _⟩ | ⟨h, _⟩
      · exact Block.toList_bounded ha x h
      · exact Block.toList_bounded hb x h)]
  exact mem_ssymdiff

theorem Block.opSub_wf {a b : Block} (ha : a.wf) (hb : b.wf) :
    (a.opSub b).wf := by
  apply mkBlock_wf (sdiff_sorted (Block.toList_sorted ha))
  intro x hx
  exact Block.toList_bounded ha x (mem_sdiff.mp hx).1

theorem Block.opSub_mem {a b : Block} (ha : a.wf) (hb : b.wf) (lo : Nat) :
    lo ∈ (a.opSub b).toList ↔ lo ∈ a.toList ∧ lo ∉ b.toList := by
  unfold Block.opSub
  rw [mkBlock_toList (sdiff_sorted (Block.toList_sorted ha))
    (fun x hx => Block.toList_bounded ha x (mem_sdiff.mp hx).1)]
  exact mem_sdiff

/-! ### Bitmap set algebra (spec §4.3) -/

/-- The empty bitmap. -/
def RoaringBitmap.empty : RoaringBitmap := ⟨[]⟩

theorem RoaringBitmap.empty_wf : RoaringBitmap.empty.wf := blocksWf_nil

/-- Modelled from the spec (§4.3): union, an ordered merge of the two key
streams keeping single-sided keys on both sides. -/
def RoaringBitmap.or (a b : RoaringBitmap) : RoaringBitmap :=
  ⟨keyMerge Block.opOr true true a.blocks b.blocks⟩

/-- Modelled from the spec (§4.3): intersection, merging only shared keys. -/
def RoaringBitmap.and (a b : RoaringBitmap) : RoaringBitmap :=
  ⟨keyMerge Block.opAnd false false a.blocks b.blocks⟩

/-- Modelled from the spec (§4.3): symmetric difference. -/
def RoaringBitmap.xor (a b : RoaringBitmap) : RoaringBitmap :=
  ⟨keyMerge Block.opXor true true a.blocks b.blocks⟩

/-- Modelled from the spec (§4.3): difference, keeping left-only keys. -/
def RoaringBitmap.sub (a b : RoaringBitmap) : RoaringBitmap :=
  ⟨keyMerge Block.opSub true false a.blocks b.blocks⟩

/-- Modelled from the spec (§4.3, §8): the in-place union mutates the left
operand into the same result the operand form produces; in the pure
state-passing model the updated state is that result. -/
def RoaringBitmap.ior (a b : RoaringBitmap) : RoaringBitmap := a.or b

/-- Modelled from the spec: in-place intersection (see `ior`). -/
def RoaringBitmap.iand (a b : RoaringBitmap) : RoaringBitmap := a.and b

/-- Modelled from the spec: in-place symmetric difference (see `ior`). -/
def RoaringBitmap.ixor (a b : RoaringBitmap) : RoaringBitmap := a.xor b

/-- Modelled from the spec: in-place difference (see `ior`). -/
def RoaringBitmap.isub (a b : RoaringBitmap) : RoaringBitmap := a.sub b

theorem RoaringBitmap.or_wf {a b : RoaringBitmap} (ha : a.wf) (hb : b.wf) :
    (a.or b).wf :=
  keyMerge_wf _ _ _ (fun _ _ => Block.opOr_wf) _ _ ha hb

theorem RoaringBitmap.and_wf {a b : RoaringBitmap} (ha : a.wf) (hb : b.wf) :
    (a.and b).wf :=
  keyMerge_wf _ _ _ (fun _ _ => Block.opAnd_wf) _ _ ha hb

theorem RoaringBitmap.xor_wf {a b : RoaringBitmap} (ha : a.wf) (hb : b.wf) :
    (a.xor b).wf :=
  keyMerge_wf _ _ _ (fun _ _ => Block.opXor_wf) _ _ ha hb

theorem RoaringBitmap.sub_wf {a b : RoaringBitmap} (ha : a.wf) (hb : b.wf) :
    (a.sub b).wf :=
  keyMerge_wf _ _ _ (fun _ _ => Block.opSub_wf) _ _ ha hb

theorem RoaringBitmap.mem_or {a b : RoaringBitmap} (ha : a.wf) (hb : b.wf)
    (v : Nat) : v ∈ (a.or b).toList ↔ v ∈ a.toList ∨ v ∈ b.toList := by
  show v ∈ blocksToList (keyMerge Block.opOr true true a.blocks b.blocks) ↔ _
  have hwf : blocksWf (keyMerge Block.opOr true true a.blocks b.blocks) :=
    RoaringBitmap.or_wf ha hb
  rw [mem_blocksToList_iff_blockAt hwf]
  rw [keyMerge_blockAt Block.opOr true true Or
    (fun _ _ => Block.opOr_wf) (fun _ _ => Block.opOr_mem)
    (fun P => by simp) (fun P => by simp) a.blocks b.blocks ha hb]
  rw [← mem_blocksToList_iff_blockAt ha, ← mem_blocksToList_iff_blockAt hb]
  exact Iff.rfl

theorem RoaringBitmap.mem_and {a b : RoaringBitmap} (ha : a.wf) (hb : b.wf)
    (v : Nat) : v ∈ (a.and b).toList ↔ v ∈ a.toList ∧ v ∈ b.toList := by
  show v ∈ blocksToList (keyMerge Block.opAnd false false a.blocks b.blocks) ↔ _
  have hwf : blocksWf (keyMerge Block.opAnd false false a.blocks b.blocks) :=
    RoaringBitmap.and_wf ha hb
  rw [mem_blocksToList_iff_blockAt hwf]
  rw [keyMerge_blockAt Block.opAnd false false And
    (fun _ _ => Block.opAnd_wf) (fun _ _ => Block.opAnd_mem)
    (fun P => by simp) (fun P => by simp) a.blocks b.blocks ha hb]
  rw [← mem_blocksToList_iff_blockAt ha, ← mem_blocksToList_iff_blockAt hb]
  exact Iff.rfl

theorem RoaringBitmap.mem_xor {a b : RoaringBitmap} (ha : a.wf) (hb : b.wf)
    (v : Nat) : v ∈ (a.xor b).toList ↔
      (v ∈ a.toList ∧ v ∉ b.toList) ∨ (v ∈ b.toList ∧ v ∉ a.toList) := by
  show v ∈ blocksToList (keyMerge Block.opXor true true a.blocks b.blocks) ↔ _
  have hwf : blocksWf (keyMerge Block.opXor true true a.blocks b.blocks) :=
    RoaringBitmap.xor_wf ha hb
  rw [mem_blocksToList_iff_blockAt hwf]
  rw [keyMerge_blockAt Block.opXor true true
    (fun P Q => (P ∧ ¬Q) ∨ (Q ∧ ¬P))
    (fun _ _ => Block.opXor_wf) (fun _ _ => Block.opXor_mem)
    (fun P => by simp) (fun P => by simp) a.blocks b.blocks ha hb]
  rw [← mem_blocksToList_iff_blockAt ha, ← mem_blocksToList_iff_blockAt hb]
  exact Iff.rfl

theorem RoaringBitmap.mem_sub {a b : RoaringBitmap} (ha : a.wf) (hb : b.wf)
    (v : Nat) : v ∈ (a.sub b).toList ↔ v ∈ a.toList ∧ v ∉ b.toList := by
  show v ∈ blocksToList (keyMerge Block.opSub true false a.blocks b.blocks) ↔ _
  have hwf : blocksWf (keyMerge Block.opSub true false a.blocks b.blocks) :=
    RoaringBitmap.sub_wf ha hb
  rw [mem_blocksToList_iff_blockAt hwf]
  rw [keyMerge_blockAt Block.opSub true false (fun P Q => P ∧ ¬Q)
    (fun _ _ => Block.opSub_wf) (fun _ _ => Block.opSub_mem)
    (fun P => by simp) (fun P => by simp) a.blocks b.blocks ha hb]
  rw [← mem_blocksToList_iff_blockAt ha, ← mem_blocksToList_iff_blockAt hb]
  exact Iff.rfl

/-! ### Mutation: add, discard, pop (spec §4.2, §4.3) -/

/-- Modelled from the spec (§4.2): insert a low part into a Block,
converting the variant when a size threshold is crossed. -/
def Block.add (b : Block) (lo : Nat) : Block :=
  mkBlock (smerge b.toList [lo])

/-- Modelled from the spec (§4.2): remove a low part from a Block,
converting the variant when a size threshold is crossed. -/
def Block.discard (b : Block) (lo : Nat) : Block :=
  mkBlock (sdiff b.toList [lo])

theorem blockAt_wf {bs : List (Nat × Block)} (hwf : blocksWf bs) (k : Nat) :
    (blockAt bs k).wf := by
  rcases blockAt_eq_default_or_mem bs k with hd | hm
  · rw [hd]
    exact ⟨List.Pairwise.nil, by simp, by simp [Block.cardinality]⟩
  · exact (hwf.2 _ hm).2.1

theorem Block.add_mem {b : Block} (hb : b.wf) {lo : Nat} (hlo : lo < 65536)
    (x : Nat) : x ∈ (b.add lo).toList ↔ x ∈ b.toList ∨ x = lo := by
  unfold Block.add
  rw [mkBlock_toList (smerge_sorted _ _ (Block.toList_sorted hb) (List.pairwise_singleton _ _))
    (by
      intro a ha
      rcases (mem_smerge _ _).mp ha with h | h
      · exact Block.toList_bounded hb a h
      · rw [List.mem_singleton.mp h]; exact hlo)]
  rw [mem_smerge]
  simp

theorem Block.add_wf {b : Block} (hb : b.wf) {lo : Nat} (hlo : lo < 65536) :
    (b.add lo).wf := by
  apply mkBlock_wf (smerge_sorted _ _ (Block.toList_sorted hb) (List.pairwise_singleton _ _))
  intro a ha
  rcases (mem_smerge _ _).mp ha with h | h
  · exact Block.toList_bounded hb a h
  · rw [List.mem_singleton.mp h]; exact hlo

theorem Block.add_cardinality_ne_zero {b : Block} (hb : b.wf) {lo : Nat}
    (hlo : lo < 65536) : (b.add lo).cardinality ≠ 0 := by
  have hmem : lo ∈ (b.add lo).toList := (Block.add_mem hb hlo lo).mpr (Or.inr rfl)
  have hwf := Block.add_wf hb hlo
  rw [Block.cardinality_eq_length hwf]
  intro h0
  rw [List.length_eq_zero.mp h0] at hmem
  cases hmem

theorem Block.discard_mem {b : Block} (hb : b.wf) (lo : Nat)
    (x : Nat) : x ∈ (b.discard lo).toList ↔ x ∈ b.toList ∧ x ≠ lo := by
  unfold Block.discard
  rw [mkBlock_toList (sdiff_sorted (Block.toList_sorted hb))
    (fun a ha => Block.toList_bounded hb a (mem_sdiff.mp ha).1)]
  rw [mem_sdiff]
  simp

theorem Block.wf_discard {b : Block} (hb : b.wf) (lo : Nat) :
    (b.discard lo).wf := by
  apply mkBlock_wf (sdiff_sorted (Block.toList_sorted hb))
  exact fun a ha => Block.toList_bounded hb a (mem_sdiff.mp ha).1

/-- Modelled from the spec (§2 data flow): route an added value's low part
into the block addressed by its key, keeping keys ascending. -/
def addBlocks : List (Nat × Block) → Nat → Nat → List (Nat × Block)
  | [], key, lo => [(key, mkBlock [lo])]
  | p :: rest, key, lo =>
      if key < p.1 then (key, mkBlock [lo]) :: p :: rest
      else if key = p.1 then (p.1, p.2.add lo) :: rest
      else p :: addBlocks rest key lo

/-- Modelled from the spec (§4.3): discard routes to the block under the
key and drops the block if it becomes empty (§3: empty blocks are not
retained). -/
def discardBlocks : List (Nat × Block) → Nat → Nat → List (Nat × Block)
  | [], _, _ => []
  | p :: rest, key, lo =>
      if key = p.1 then
        (if (p.2.discard lo).cardinality = 0 then rest
         else (p.1, p.2.discard lo) :: rest)
      else p :: discardBlocks rest key lo

theorem mkBlock_singleton_toList {lo : Nat} (hlo : lo < 65536) :
    (mkBlock [lo]).toList = [lo] :=
  mkBlock_toList (List.pairwise_singleton _ _) (by simpa using hlo)

theorem empty_block_add (lo : Nat) :
    (Block.positive []).add lo = mkBlock [lo] := rfl

theorem blockAt_nil (k : Nat) : blockAt [] k = Block.positive [] := rfl

theorem blockAt_cons (pk : Nat) (pb : Block) (rest : List (Nat × Block))
    (k : Nat) :
    blockAt ((pk, pb) :: rest) k = if k = pk then pb else blockAt rest k := rfl

theorem blockAt_addBlocks :
    ∀ bs : List (Nat × Block), blocksWf bs → ∀ key lo k : Nat,
      blockAt (addBlocks bs key lo) k =
        if k = key then (blockAt bs key).add lo else blockAt bs k := by
  intro bs
  induction bs with
  | nil =>
      intro _ key lo k
      show blockAt [(key, mkBlock [lo])] k = _
      rw [blockAt_cons]
      by_cases hk : k = key
      · rw [if_pos hk, if_pos hk, blockAt_nil, empty_block_add]
      · rw [if_neg hk, if_neg hk, blockAt_nil]
  | cons p rest ih =>
      obtain ⟨pk, pb⟩ := p
      intro hwf key lo k
      rw [blocksWf_cons_iff] at hwf
      rw [addBlocks]
      by_cases h1 : key < pk
      · rw [if_pos h1, blockAt_cons]
        by_cases hk : k = key
        · rw [if_pos hk, if_pos hk]
          have hempty : blockAt ((pk, pb) :: rest) key = Block.positive [] := by
            apply blockAt_of_forall_ne
            intro q hq
            rcases List.mem_cons.mp hq with rfl | hq2
            · show key ≠ pk; omega
            · have := hwf.1 q hq2; omega
          rw [hempty, empty_block_add]
        · rw [if_neg hk, if_neg hk]
      · rw [if_neg h1]
        by_cases h2 : key = pk
        · rw [if_pos h2, blockAt_cons]
          by_cases hk : k = key
          · rw [if_pos (show k = pk by omega), if_pos hk, blockAt_cons,
              if_pos h2]
          · rw [if_neg (show ¬ k = pk by omega), if_neg hk, blockAt_cons,
              if_neg (show ¬ k = pk by omega)]
        · rw [if_neg h2]
          have hgt : pk < key := by omega
          rw [blockAt_cons]
          by_cases hk3 : k = pk
          · rw [if_pos hk3, if_neg (show ¬ k = key by omega), blockAt_cons,
              if_pos hk3]
          · rw [if_neg hk3, ih hwf.2.2.2.2 key lo k, blockAt_cons,
              if_neg (show ¬ key = pk by omega), blockAt_cons, if_neg hk3]

theorem addBlocks_keys :
    ∀ (bs : List (Nat × Block)) (key lo : Nat), ∀ p ∈ addBlocks bs key lo,
      p.1 = key ∨ ∃ q ∈ bs, p.1 = q.1 := by
  intro bs
  induction bs with
  | nil =>
      intro key lo p hp
      rcases List.mem_singleton.mp hp with rfl
      exact Or.inl rfl
  | cons q rest ih =>
      intro key lo p hp
      rw [addBlocks] at hp
      split at hp
      · rcases List.mem_cons.mp hp with rfl | hp2
        · exact Or.inl rfl
        · exact Or.inr ⟨p, hp2, rfl⟩
      · split at hp
        · rcases List.mem_cons.mp hp with rfl | hp2
          · exact Or.inr ⟨q, List.mem_cons_self _ _, rfl⟩
          · exact Or.inr ⟨p, List.mem_cons_of_mem _ hp2, rfl⟩
        · rcases List.mem_cons.mp hp with rfl | hp2
          · exact Or.inr ⟨p, List.mem_cons_self _ _, rfl⟩
          · rcases ih key lo p hp2 with h | ⟨q2, hq2, he⟩
            · exact Or.inl h
            · exact Or.inr ⟨q2, List.mem_cons_of_mem _ hq2, he⟩

theorem addBlocks_wf :
    ∀ bs : List (Nat × Block), blocksWf bs → ∀ key lo : Nat,
      key < 65536 → lo < 65536 → blocksWf (addBlocks bs key lo) := by
  intro bs
  induction bs with
  | nil =>
      intro _ key lo hkey hlo
      show blocksWf [(key, mkBlock [lo])]
      rw [blocksWf_cons_iff]
      refine ⟨by simp, hkey, mkBlock_wf (List.pairwise_singleton _ _) (by simpa using hlo), ?_, blocksWf_nil⟩
      rw [mkBlock_cardinality (List.pairwise_singleton _ _) (by simpa using hlo)]
      simp
  | cons q rest ih =>
      obtain ⟨qk, qb⟩ := q
      intro hwf key lo hkey hlo
      rw [blocksWf_cons_iff] at hwf
      rw [addBlocks]
      by_cases h1 : key < qk
      · rw [if_pos h1, blocksWf_cons_iff]
        refine ⟨?_, hkey, mkBlock_wf (List.pairwise_singleton _ _) (by simpa using hlo), ?_, blocksWf_cons_iff.mpr hwf⟩
        · intro p hp
          rcases List.mem_cons.mp hp with rfl | hp2
          · exact h1
          · have := hwf.1 p hp2; omega
        · rw [mkBlock_cardinality (List.pairwise_singleton _ _) (by simpa using hlo)]
          simp
      · rw [if_neg h1]
        by_cases h2 : key = qk
        · rw [if_pos h2, blocksWf_cons_iff]
          exact ⟨hwf.1, hwf.2.1, Block.add_wf hwf.2.2.1 hlo,
            Block.add_cardinality_ne_zero hwf.2.2.1 hlo, hwf.2.2.2.2⟩
        · rw [if_neg h2, blocksWf_cons_iff]
          refine ⟨?_, hwf.2.1, hwf.2.2.1, hwf.2.2.2.1,
            ih hwf.2.2.2.2 key lo hkey hlo⟩
          intro p hp
          rcases addBlocks_keys rest key lo p hp with he | ⟨q2, hq2, he⟩
          · rw [he]; omega
          · rw [he]; exact hwf.1 q2 hq2

/-! ### Bitmap-level mutators (spec §4.3) -/

/-- Error taxonomy of the spec (§7). -/
inductive RBError where
  | outOfRange
  | typeMismatch
  | valueInvalid
deriving DecidableEq

/-- Unchecked insertion of an in-range value: route the low 16 bits into
the block addressed by the high 16 bits (§2 data flow). -/
def RoaringBitmap.addU (rb : RoaringBitmap) (v : Nat) : RoaringBitmap :=
  ⟨addBlocks rb.blocks (v >>> 16) (v &&& 65535)⟩

/-- Modelled from the spec (§4.3 Failure, §7 OutOfRange, propagation
policy "mutators validate inputs before touching storage"): `add`
validates that the value lies in [0, 2^32) and raises OutOfRange
otherwise, leaving the bitmap untouched. -/
def RoaringBitmap.add (rb : RoaringBitmap) (v : Int) :
    Except RBError RoaringBitmap :=
  if v < 0 ∨ 4294967296 ≤ v then Except.error RBError.outOfRange
  else Except.ok (rb.addU v.toNat)

theorem RoaringBitmap.addU_wf {rb : RoaringBitmap} (h : rb.wf) {v : Nat}
    (hv : v < 4294967296) : (rb.addU v).wf := by
  apply addBlocks_wf rb.blocks h
  · rw [shiftRight16_eq]; omega
  · rw [and65535_eq]; omega

theorem RoaringBitmap.mem_addU {rb : RoaringBitmap} (h : rb.wf) {v : Nat}
    (hv : v < 4294967296) (x : Nat) :
    x ∈ (rb.addU v).toList ↔ x ∈ rb.toList ∨ x = v := by
  show x ∈ blocksToList (addBlocks rb.blocks (v >>> 16) (v &&& 65535)) ↔ _
  have hwfr : blocksWf (addBlocks rb.blocks (v >>> 16) (v &&& 65535)) :=
    RoaringBitmap.addU_wf h hv
  rw [mem_blocksToList_iff_blockAt hwfr,
    blockAt_addBlocks rb.blocks h (v >>> 16) (v &&& 65535) (x / 65536),
    shiftRight16_eq, and65535_eq]
  have hrb : x ∈ rb.toList ↔ x % 65536 ∈ (blockAt rb.blocks (x / 65536)).toList :=
    mem_blocksToList_iff_blockAt h
  by_cases hk : x / 65536 = v / 65536
  · rw [if_pos hk, Block.add_mem (blockAt_wf h _) (by omega), hrb, hk]
    constructor
    · rintro (hm | hm)
      · exact Or.inl hm
      · right; omega
    · rintro (hm | rfl)
      · exact Or.inl hm
      · right; rfl
  · rw [if_neg hk, hrb]
    constructor
    · intro hm; exact Or.inl hm
    · rintro (hm | rfl)
      · exact hm
      · exact absurd rfl hk

theorem discardBlocks_keys :
    ∀ (bs : List (Nat × Block)) (key lo : Nat), ∀ p ∈ discardBlocks bs key lo,
      ∃ q ∈ bs, p.1 = q.1 := by
  intro bs
  induction bs with
  | nil =>
      intro key lo p hp
      cases hp
  | cons q rest ih =>
      intro key lo p hp
      rw [discardBlocks] at hp
      split at hp
      · split at hp
        · exact
            have := hp
            ⟨p, List.mem_cons_of_mem _ this, rfl⟩
        · rcases List.mem_cons.mp hp with rfl | hp2
          · exact ⟨q, List.mem_cons_self _ _, rfl⟩
          · exact ⟨p, List.mem_cons_of_mem _ hp2, rfl⟩
      · rcases List.mem_cons.mp hp with rfl | hp2
        · exact ⟨p, List.mem_cons_self _ _, rfl⟩
        · rcases ih key lo p hp2 with ⟨q2, hq2, he⟩
          exact ⟨q2, List.mem_cons_of_mem _ hq2, he⟩

theorem discardBlocks_wf :
    ∀ bs : List (Nat × Block), blocksWf bs → ∀ key lo : Nat,
      blocksWf (discardBlocks bs key lo) := by
  intro bs
  induction bs with
  | nil => intro _ _ _; exact blocksWf_nil
  | cons q rest ih =>
      obtain ⟨qk, qb⟩ := q
      intro hwf key lo
      rw [blocksWf_cons_iff] at hwf
      rw [discardBlocks]
      by_cases h1 : key = qk
      · rw [if_pos h1]
        split
        · exact hwf.2.2.2.2
        · rw [blocksWf_cons_iff]
          exact ⟨hwf.1, hwf.2.1, Block.wf_discard hwf.2.2.1 lo,
            by assumption, hwf.2.2.2.2⟩
      · rw [if_neg h1, blocksWf_cons_iff]
        refine ⟨?_, hwf.2.1, hwf.2.2.1, hwf.2.2.2.1, ih hwf.2.2.2.2 key lo⟩
        intro p hp
        rcases discardBlocks_keys rest key lo p hp with ⟨q2, hq2, he⟩
        rw [he]
        exact hwf.1 q2 hq2

theorem blockAt_discardBlocks_mem :
    ∀ bs : List (Nat × Block), blocksWf bs → ∀ key lo k x : Nat,
      (x ∈ (blockAt (discardBlocks bs key lo) k).toList ↔
        (x ∈ (blockAt bs k).toList ∧ ¬(k = key ∧ x = lo))) := by
  intro bs
  induction bs with
  | nil =>
      intro _ key lo k x
      show x ∈ (blockAt [] k).toList ↔ _
      rw [blockAt_nil, not_mem_empty_block]
      simp
  | cons q rest ih =>
      obtain ⟨qk, qb⟩ := q
      intro hwf key lo k x
      rw [blocksWf_cons_iff] at hwf
      rw [discardBlocks]
      by_cases h1 : key = qk
      · rw [if_pos h1]
        split
        · rename_i hc0
          by_cases hk : k = qk
          · have hempty : blockAt rest k = Block.positive [] := by
              apply blockAt_of_forall_ne
              intro p hp
              have := hwf.1 p hp
              omega
            have hnil : (qb.discard lo).toList = [] := by
              rw [← List.length_eq_zero,
                ← Block.cardinality_eq_length (Block.wf_discard hwf.2.2.1 lo)]
              exact hc0
            have hd := Block.discard_mem hwf.2.2.1 lo x
            rw [hnil] at hd
            rw [hempty, not_mem_empty_block, blockAt_cons, if_pos hk]
            constructor
            · intro hfalse; exact hfalse.elim
            · rintro ⟨hm, hne⟩
              apply (by simp : x ∉ ([] : List Nat))
              apply hd.mpr
              refine ⟨hm, ?_⟩
              intro hxlo
              exact hne ⟨by omega, hxlo⟩
          · rw [blockAt_cons, if_neg hk]
            have : ¬ (k = key ∧ x = lo) := by
              intro hc
              exact hk (by omega)
            simp [this]
        · by_cases hk : k = qk
          · rw [blockAt_cons, if_pos hk, blockAt_cons, if_pos hk,
              Block.discard_mem hwf.2.2.1 lo x]
            constructor
            · rintro ⟨hm, hne⟩
              exact ⟨hm, fun hc => hne hc.2⟩
            · rintro ⟨hm, hne⟩
              refine ⟨hm, fun hxlo => hne ⟨by omega, hxlo⟩⟩
          · rw [blockAt_cons, if_neg hk, blockAt_cons, if_neg hk]
            have : ¬ (k = key ∧ x = lo) := by
              intro hc
              exact hk (by omega)
            simp [this]
      · rw [if_neg h1]
        by_cases hk : k = qk
        · rw [blockAt_cons, if_pos hk, blockAt_cons, if_pos hk]
          have : ¬ (k = key ∧ x = lo) := by
            intro hc
            exact h1 (by omega)
          simp [this]
        · rw [blockAt_cons, if_neg hk, blockAt_cons, if_neg hk]
          exact ih hwf.2.2.2.2 key lo k x

/-- Modelled from the spec (§4.3): discard removes a value, dropping its
block when it becomes empty. -/
def RoaringBitmap.discard (rb : RoaringBitmap) (v : Nat) : RoaringBitmap :=
  ⟨discardBlocks rb.blocks (v >>> 16) (v &&& 65535)⟩

theorem RoaringBitmap.discard_wf {rb : RoaringBitmap} (h : rb.wf) (v : Nat) :
    (rb.discard v).wf :=
  discardBlocks_wf rb.blocks h _ _

theorem RoaringBitmap.mem_discard {rb : RoaringBitmap} (h : rb.wf) (v : Nat)
    (x : Nat) : x ∈ (rb.discard v).toList ↔ x ∈ rb.toList ∧ x ≠ v := by
  show x ∈ blocksToList (discardBlocks rb.blocks (v >>> 16) (v &&& 65535)) ↔ _
  have hwfr : blocksWf (discardBlocks rb.blocks (v >>> 16) (v &&& 65535)) :=
    discardBlocks_wf rb.blocks h _ _
  rw [mem_blocksToList_iff_blockAt hwfr,
    blockAt_discardBlocks_mem rb.blocks h (v >>> 16) (v &&& 65535) (x / 65536) (x % 65536),
    ← mem_blocksToList_iff_blockAt h, shiftRight16_eq, and65535_eq]
  constructor
  · rintro ⟨hm, hne⟩
    refine ⟨hm, fun hxv => hne ?_⟩
    subst hxv
    exact ⟨rfl, rfl⟩
  · rintro ⟨hm, hne⟩
    refine ⟨hm, fun hc => hne ?_⟩
    omega

/-- The least element of a bitmap (spec §4.3 min). -/
def RoaringBitmap.min (rb : RoaringBitmap) : Option Nat := rb.toList.head?

/-- The greatest element of a bitmap (spec §4.3 max). -/
def RoaringBitmap.max (rb : RoaringBitmap) : Option Nat := rb.toList.getLast?

/-- Modelled from the spec and tests: the spec (§7 ValueInvalid) only says
that pop on an empty bitmap is an error and does not name the removed
element; the unit tests (test_issue24) pin pop to removing and returning
the maximum, which is how the missing engine code is modelled here. -/
def RoaringBitmap.pop (rb : RoaringBitmap) :
    Except RBError (Nat × RoaringBitmap) :=
  match rb.max with
  | none => Except.error RBError.valueInvalid
  | some m => Except.ok (m, rb.discard m)

/-- Modelled from the spec (§4.3 "Constructors from ordered/unordered
iterables"): the bitmap built from an arbitrary list of in-range values,
one insertion per element. -/
def RoaringBitmap.ofList (xs : List Nat) : RoaringBitmap :=
  xs.foldl RoaringBitmap.addU RoaringBitmap.empty

theorem foldl_addU_spec :
    ∀ (xs : List Nat) (rb : RoaringBitmap), rb.wf →
      (∀ x ∈ xs, x < 4294967296) →
      (xs.foldl RoaringBitmap.addU rb).wf ∧
      (∀ v, v ∈ (xs.foldl RoaringBitmap.addU rb).toList ↔
        v ∈ xs ∨ v ∈ rb.toList) := by
  intro xs
  induction xs with
  | nil =>
      intro rb h _
      exact ⟨h, fun v => by simp⟩
  | cons x xs ih =>
      intro rb h hb
      have hx : x < 4294967296 := hb x (List.mem_cons_self _ _)
      have hwf2 : (rb.addU x).wf := RoaringBitmap.addU_wf h hx
      obtain ⟨h1, h2⟩ := ih (rb.addU x) hwf2
        (fun y hy => hb y (List.mem_cons_of_mem _ hy))
      rw [List.foldl_cons]
      refine ⟨h1, fun v => ?_⟩
      rw [h2 v, RoaringBitmap.mem_addU h hx v, List.mem_cons]
      tauto

theorem RoaringBitmap.ofList_wf {xs : List Nat}
    (hb : ∀ x ∈ xs, x < 4294967296) : (RoaringBitmap.ofList xs).wf :=
  (foldl_addU_spec xs RoaringBitmap.empty RoaringBitmap.empty_wf hb).1

theorem RoaringBitmap.mem_ofList {xs : List Nat}
    (hb : ∀ x ∈ xs, x < 4294967296) (v : Nat) :
    v ∈ (RoaringBitmap.ofList xs).toList ↔ v ∈ xs := by
  rw [RoaringBitmap.ofList,
    (foldl_addU_spec xs RoaringBitmap.empty RoaringBitmap.empty_wf hb).2 v]
  have : RoaringBitmap.empty.toList = [] := rfl
  rw [this]
  simp

/-! ### Rank and select (spec §4.2, §4.3) -/

/-- Modelled from the spec (§4.2 Numeric semantics): `rank(lo)` returns
the number of elements in the block that are at most `lo`. -/
def Block.rank (b : Block) (lo : Nat) : Nat :=
  (b.toList.filter (fun x => decide (x ≤ lo))).length

/-- Modelled from the spec (§4.2 Numeric semantics): `select(k)` returns
the 0-indexed k-th smallest element of the block. -/
def Block.select (b : Block) (k : Nat) : Option Nat := b.toList[k]?

/-- Modelled from the spec (§4.3 Rank): sum the cardinalities of all
blocks whose key is below the target key, then add the intra-block rank. -/
def rankBlocks : List (Nat × Block) → Nat → Nat
  | [], _ => 0
  | p :: rest, x =>
      if x < p.1 * 65536 then 0
      else if x < (p.1 + 1) * 65536 then p.2.rank (x - p.1 * 65536)
      else p.2.cardinality + rankBlocks rest x

/-- Rank over the whole bitmap: number of stored values at most `x`. -/
def RoaringBitmap.rank (rb : RoaringBitmap) (x : Nat) : Nat :=
  rankBlocks rb.blocks x

/-- Modelled from the spec (§4.3 Select): walk the key list accumulating
cardinality until the containing block is found, then delegate to the
block-level select. -/
def selectBlocks : List (Nat × Block) → Nat → Option Nat
  | [], _ => none
  | p :: rest, i =>
      if i < p.2.cardinality then
        match p.2.select i with
        | none => none
        | some lo => some (p.1 * 65536 + lo)
      else selectBlocks rest (i - p.2.cardinality)

/-- Select over the whole bitmap: the 0-indexed i-th smallest value. -/
def RoaringBitmap.select (rb : RoaringBitmap) (i : Nat) : Option Nat :=
  selectBlocks rb.blocks i

theorem blocksToList_cons (pk : Nat) (pb : Block) (rest : List (Nat × Block)) :
    blocksToList ((pk, pb) :: rest) =
      pb.toList.map (fun lo => pk * 65536 + lo) ++ blocksToList rest := by
  unfold blocksToList
  rw [List.map_cons, List.flatten_cons]

theorem rankBlocks_eq :
    ∀ bs : List (Nat × Block), blocksWf bs → ∀ x : Nat,
      rankBlocks bs x =
        ((blocksToList bs).filter (fun v => decide (v ≤ x))).length := by
  intro bs
  induction bs with
  | nil => intro _ x; rfl
  | cons p rest ih =>
      obtain ⟨pk, pb⟩ := p
      intro hwf x
      rw [blocksWf_cons_iff] at hwf
      have hbound := Block.toList_bounded hwf.2.2.1
      rw [blocksToList_cons, List.filter_append, List.length_append, rankBlocks]
      by_cases h1 : x < pk * 65536
      · rw [if_pos h1]
        have hchunk : (pb.toList.map (fun lo => pk * 65536 + lo)).filter
            (fun v => decide (v ≤ x)) = [] := by
          rw [List.filter_eq_nil_iff]
          intro a ha
          rcases List.mem_map.mp ha with ⟨lo, _, rfl⟩
          simp only [decide_eq_true_eq]
          omega
        have hrest : (blocksToList rest).filter (fun v => decide (v ≤ x)) = [] := by
          rw [List.filter_eq_nil_iff]
          intro a ha
          rcases mem_blocksToList.mp ha with ⟨k, b2, lo, hmem, hlo, rfl⟩
          have hk := hwf.1 _ hmem
          simp only [decide_eq_true_eq]
          omega
        rw [hchunk, hrest]
        rfl
      · rw [if_neg h1]
        by_cases h2 : x < (pk + 1) * 65536
        · rw [if_pos h2]
          have hrest : (blocksToList rest).filter (fun v => decide (v ≤ x)) = [] := by
            rw [List.filter_eq_nil_iff]
            intro a ha
            rcases mem_blocksToList.mp ha with ⟨k, b2, lo, hmem, hlo, rfl⟩
            have hk := hwf.1 _ hmem
            simp only [decide_eq_true_eq]
            omega
          rw [hrest]
          unfold Block.rank
          rw [List.filter_map]
          rw [List.length_map, List.length_nil, Nat.add_zero]
          congr 1
          apply List.filter_congr
          intro lo hlo
          have := hbound lo hlo
          simp only [Function.comp]
          rw [decide_eq_decide]
          omega
        · rw [if_neg h2]
          have hchunk : (pb.toList.map (fun lo => pk * 65536 + lo)).filter
              (fun v => decide (v ≤ x)) = pb.toList.map (fun lo => pk * 65536 + lo) := by
            rw [List.filter_eq_self]
            intro a ha
            rcases List.mem_map.mp ha with ⟨lo, hlo, rfl⟩
            have := hbound lo hlo
            simp only [decide_eq_true_eq]
            omega
          rw [hchunk, List.length_map, ih hwf.2.2.2.2 x,
            Block.cardinality_eq_length hwf.2.2.1]

theorem selectBlocks_eq :
    ∀ bs : List (Nat × Block), blocksWf bs → ∀ i : Nat,
      selectBlocks bs i = (blocksToList bs)[i]? := by
  intro bs
  induction bs with
  | nil => intro _ i; rfl
  | cons p rest ih =>
      obtain ⟨pk, pb⟩ := p
      intro hwf i
      rw [blocksWf_cons_iff] at hwf
      rw [blocksToList_cons, selectBlocks]
      have hlen : (pb.toList.map (fun lo => pk * 65536 + lo)).length
          = pb.cardinality := by
        rw [List.length_map, Block.cardinality_eq_length hwf.2.2.1]
      by_cases h1 : i < pb.cardinality
      · rw [if_pos h1, List.getElem?_append_left (by omega)]
        have hi : i < pb.toList.length := by
          rw [← Block.cardinality_eq_length hwf.2.2.1]; exact h1
        unfold Block.select
        rw [List.getElem?_map, List.getElem?_eq_getElem hi]
        rfl
      · rw [if_neg h1, List.getElem?_append_right (by omega), hlen,
          ih hwf.2.2.2.2 (i - pb.cardinality)]

/-- In a strictly ascending list, the number of entries at most the i-th
entry is exactly i + 1. -/
theorem sorted_filter_le_getElem :
    ∀ (l : List Nat), l.Pairwise (· < ·) → ∀ i, (h : i < l.length) →
      ((l.filter (fun x => decide (x ≤ l[i]))).length = i + 1) := by
  intro l
  induction l with
  | nil => intro _ i h; cases h
  | cons a l ih =>
      intro hs i h
      rw [List.pairwise_cons] at hs
      match i with
      | 0 =>
          rw [List.filter_cons]
          have ha : (decide (a ≤ (a :: l)[0]) = true) := by simp
          rw [if_pos ha]
          have : l.filter (fun x => decide (x ≤ (a :: l)[0])) = [] := by
            rw [List.filter_eq_nil_iff]
            intro x hx
            have := hs.1 x hx
            simp only [decide_eq_true_eq]
            show ¬ x ≤ a
            omega
          rw [this]
          rfl
      | i + 1 =>
          have hi : i < l.length := by
            have := h
            simp only [List.length_cons] at this
            omega
          have hgl : (a :: l)[i + 1] = l[i] := by
            simp
          rw [List.filter_cons, hgl]
          have hmem : l[i] ∈ l := List.getElem_mem hi
          have ha : (decide (a ≤ l[i]) = true) := by
            have := hs.1 _ hmem
            simp only [decide_eq_true_eq]
            omega
          rw [if_pos ha, List.length_cons, ih hs.2 i hi]

/-! ### Clamp (spec §4.3) -/

/-- Modelled from the spec (§4.3 Clamp): restrict the bitmap to the
half-open range [a, b), key block by key block, keeping only the low
parts whose recombined value falls in the range and dropping blocks that
become empty; correct whether a and b fall in the same key, adjacent
keys, or span many keys. -/
def clampBlocks : List (Nat × Block) → Nat → Nat → List (Nat × Block)
  | [], _, _ => []
  | p :: rest, a, b =>
      (if ((p.2.toList.filter (fun lo =>
          decide (a ≤ p.1 * 65536 + lo ∧ p.1 * 65536 + lo < b))).isEmpty : Bool)
       then []
       else [(p.1, mkBlock (p.2.toList.filter (fun lo =>
          decide (a ≤ p.1 * 65536 + lo ∧ p.1 * 65536 + lo < b))))])
        ++ clampBlocks rest a b

/-- Range restriction: a new bitmap containing exactly the elements of
the source in [a, b). -/
def RoaringBitmap.clamp (rb : RoaringBitmap) (a b : Nat) : RoaringBitmap :=
  ⟨clampBlocks rb.blocks a b⟩

theorem clampBlocks_keys :
    ∀ (bs : List (Nat × Block)) (a b : Nat), ∀ p ∈ clampBlocks bs a b,
      ∃ q ∈ bs, p.1 = q.1 := by
  intro bs
  induction bs with
  | nil => intro a b p hp; cases hp
  | cons q rest ih =>
      intro a b p hp
      rw [clampBlocks] at hp
      rcases List.mem_append.mp hp with hp1 | hp2
      · split at hp1
        · cases hp1
        · rcases List.mem_singleton.mp hp1 with rfl
          exact ⟨q, List.mem_cons_self _ _, rfl⟩
      · rcases ih a b p hp2 with ⟨q2, hq2, he⟩
        exact ⟨q2, List.mem_cons_of_mem _ hq2, he⟩

theorem clampBlocks_wf :
    ∀ bs : List (Nat × Block), blocksWf bs → ∀ a b : Nat,
      blocksWf (clampBlocks bs a b) := by
  intro bs
  induction bs with
  | nil => intro _ _ _; exact blocksWf_nil
  | cons q rest ih =>
      obtain ⟨qk, qb⟩ := q
      intro hwf a b
      rw [blocksWf_cons_iff] at hwf
      have hrec := ih hwf.2.2.2.2 a b
      rw [clampBlocks]
      split
      · rw [List.nil_append]
        exact hrec
      · rename_i hne
        rw [List.singleton_append, blocksWf_cons_iff]
      -- the filtered low-part list is ascending, 16-bit and non-empty
        have hsort : ((qb.toList.filter (fun lo =>
            decide (a ≤ qk * 65536 + lo ∧ qk * 65536 + lo < b)))).Pairwise (· < ·) :=
          (Block.toList_sorted hwf.2.2.1).filter _
        have hbound : ∀ x ∈ qb.toList.filter (fun lo =>
            decide (a ≤ qk * 65536 + lo ∧ qk * 65536 + lo < b)), x < 65536 := by
          intro x hx
          exact Block.toList_bounded hwf.2.2.1 x (List.mem_filter.mp hx).1
        refine ⟨?_, hwf.2.1, mkBlock_wf hsort hbound, ?_, hrec⟩
        · intro p hp
          rcases clampBlocks_keys rest a b p hp with ⟨q2, hq2, he⟩
          rw [he]
          exact hwf.1 q2 hq2
        · rw [mkBlock_cardinality hsort hbound]
          intro h0
          exact hne (by rwa [List.isEmpty_iff, ← List.length_eq_zero])

theorem blocksToList_append (l1 l2 : List (Nat × Block)) :
    blocksToList (l1 ++ l2) = blocksToList l1 ++ blocksToList l2 := by
  unfold blocksToList
  rw [List.map_append, List.flatten_append]

theorem mem_clampBlocks :
    ∀ bs : List (Nat × Block), blocksWf bs → ∀ a b v : Nat,
      (v ∈ blocksToList (clampBlocks bs a b) ↔
        v ∈ blocksToList bs ∧ a ≤ v ∧ v < b) := by
  intro bs
  induction bs with
  | nil =>
      intro _ a b v
      show v ∈ blocksToList [] ↔ _
      unfold blocksToList
      simp
  | cons q rest ih =>
      obtain ⟨qk, qb⟩ := q
      intro hwf a b v
      rw [blocksWf_cons_iff] at hwf
      have hrec := ih hwf.2.2.2.2 a b v
      have hsort : ((qb.toList.filter (fun lo =>
          decide (a ≤ qk * 65536 + lo ∧ qk * 65536 + lo < b)))).Pairwise (· < ·) :=
        (Block.toList_sorted hwf.2.2.1).filter _
      have hbound : ∀ x ∈ qb.toList.filter (fun lo =>
          decide (a ≤ qk * 65536 + lo ∧ qk * 65536 + lo < b)), x < 65536 := by
        intro x hx
        exact Block.toList_bounded hwf.2.2.1 x (List.mem_filter.mp hx).1
      rw [clampBlocks, blocksToList_append, blocksToList_cons]
      have hchunkiff : ∀ x, (x ∈ qb.toList.map (fun lo => qk * 65536 + lo) ∧
          a ≤ x ∧ x < b) ↔
          x ∈ (qb.toList.filter (fun lo =>
            decide (a ≤ qk * 65536 + lo ∧ qk * 65536 + lo < b))).map
            (fun lo => qk * 65536 + lo) := by
        intro x
        constructor
        · rintro ⟨hx, ha, hb2⟩
          rcases List.mem_map.mp hx with ⟨lo, hlo, rfl⟩
          exact List.mem_map.mpr ⟨lo, List.mem_filter.mpr
            ⟨hlo, by simp; omega⟩, rfl⟩
        · intro hx
          rcases List.mem_map.mp hx with ⟨lo, hlo, rfl⟩
          obtain ⟨h1, h2⟩ := List.mem_filter.mp hlo
          have := of_decide_eq_true h2
          exact ⟨List.mem_map.mpr ⟨lo, h1, rfl⟩, this.1, this.2⟩
      rw [List.mem_append, List.mem_append]
      split
      · rename_i hempty
        rw [List.isEmpty_iff] at hempty
        show v ∈ blocksToList [] ∨ _ ↔ _
        have h0 : blocksToList [] = [] := rfl
        rw [h0]
        simp only [List.not_mem_nil, false_or]
        rw [hrec]
        constructor
        · rintro ⟨hm, ha, hb2⟩
          exact ⟨Or.inr hm, ha, hb2⟩
        · rintro ⟨hm | hm, ha, hb2⟩
          · exfalso
            have := (hchunkiff v).mp ⟨hm, ha, hb2⟩
            rw [hempty] at this
            simpa using this
          · exact ⟨hm, ha, hb2⟩
      · rw [blocksToList_cons]
        have h0 : blocksToList ([] : List (Nat × Block)) = [] := rfl
        rw [h0, List.append_nil, mkBlock_toList hsort hbound, hrec]
        constructor
        · rintro (hm | ⟨hm, ha, hb2⟩)
          · have := (hchunkiff v).mpr hm
            exact ⟨Or.inl this.1, this.2.1, this.2.2⟩
          · exact ⟨Or.inr hm, ha, hb2⟩
        · rintro ⟨hm | hm, ha, hb2⟩
          · exact Or.inl ((hchunkiff v).mp ⟨hm, ha, hb2⟩)
          · exact Or.inr ⟨hm, ha, hb2⟩

theorem RoaringBitmap.clamp_wf {rb : RoaringBitmap} (h : rb.wf) (a b : Nat) :
    (rb.clamp a b).wf :=
  clampBlocks_wf rb.blocks h a b

theorem RoaringBitmap.mem_clamp {rb : RoaringBitmap} (h : rb.wf) (a b v : Nat) :
    v ∈ (rb.clamp a b).toList ↔ v ∈ rb.toList ∧ a ≤ v ∧ v < b :=
  mem_clampBlocks rb.blocks h a b v

/-! ### Cardinality-only variants (spec §4.2 *_len, §4.3) -/

/-- Modelled from the spec (§4.2 "*_len variants share scanning code but
skip materialization: they return the cardinality directly"): the exact
size of the intersection, summed key by key over the shared key stream. -/
def andLenBlocks : List (Nat × Block) → List (Nat × Block) → Nat
  | [], _ => 0
  | _ :: _, [] => 0
  | x :: xs, y :: ys =>
      if x.1 < y.1 then andLenBlocks xs (y :: ys)
      else if y.1 < x.1 then andLenBlocks (x :: xs) ys
      else (sinter x.2.toList y.2.toList).length + andLenBlocks xs ys
termination_by xs ys => xs.length + ys.length

/-- Modelled from the spec (§4.2, §4.3): the exact size of the union,
summed over the merged key stream. -/
def orLenBlocks : List (Nat × Block) → List (Nat × Block) → Nat
  | [], ys => (ys.map (fun p => p.2.cardinality)).sum
  | x :: xs, [] => ((x :: xs).map (fun p => p.2.cardinality)).sum
  | x :: xs, y :: ys =>
      if x.1 < y.1 then x.2.cardinality + orLenBlocks xs (y :: ys)
      else if y.1 < x.1 then y.2.cardinality + orLenBlocks (x :: xs) ys
      else (smerge x.2.toList y.2.toList).length + orLenBlocks xs ys
termination_by xs ys => xs.length + ys.length

/-- `intersection_len(A, B)`: exact cardinality of A ∩ B without
materializing it (spec §4.3). -/
def RoaringBitmap.intersection_len (a b : RoaringBitmap) : Nat :=
  andLenBlocks a.blocks b.blocks

/-- `union_len(A, B)`: exact cardinality of A ∪ B without materializing
it (spec §4.3). -/
def RoaringBitmap.union_len (a b : RoaringBitmap) : Nat :=
  orLenBlocks a.blocks b.blocks

/-- Modelled from the spec (§4.5): the Jaccard distance
1 − |A ∩ B| / |A ∪ B|, computed from the two cardinality-only scans; the
real-number arithmetic of the spec is modelled in ℚ. -/
def RoaringBitmap.jaccard_dist (a b : RoaringBitmap) : ℚ :=
  1 - (a.intersection_len b : ℚ) / (a.union_len b : ℚ)

theorem blocksToList_length :
    ∀ bs : List (Nat × Block), blocksWf bs →
      (blocksToList bs).length = (bs.map (fun p => p.2.cardinality)).sum := by
  intro bs
  induction bs with
  | nil => intro _; rfl
  | cons p rest ih =>
      obtain ⟨pk, pb⟩ := p
      intro hwf
      rw [blocksWf_cons_iff] at hwf
      rw [blocksToList_cons, List.length_append, List.length_map,
        List.map_cons, List.sum_cons, ih hwf.2.2.2.2,
        Block.cardinality_eq_length hwf.2.2.1]

theorem blocksWf_tail {p : Nat × Block} {bs : List (Nat × Block)}
    (h : blocksWf (p :: bs)) : blocksWf bs := by
  obtain ⟨k, b⟩ := p
  exact (blocksWf_cons_iff.mp h).2.2.2.2

theorem blocksWf_head_wf {p : Nat × Block} {bs : List (Nat × Block)}
    (h : blocksWf (p :: bs)) : p.2.wf := by
  obtain ⟨k, b⟩ := p
  exact (blocksWf_cons_iff.mp h).2.2.1

theorem andLenBlocks_eq :
    ∀ xs ys : List (Nat × Block), blocksWf xs → blocksWf ys →
      andLenBlocks xs ys =
        (blocksToList (keyMerge Block.opAnd false false xs ys)).length := by
  intro xs ys
  induction xs, ys using andLenBlocks.induct with
  | case1 ys =>
      intro _ _
      rw [andLenBlocks, keyMerge, if_neg (by simp)]
      rfl
  | case2 x xs =>
      intro _ _
      rw [andLenBlocks, keyMerge, if_neg (by simp)]
      rfl
  | case3 x xs y ys hlt ih =>
      intro hx hy
      rw [andLenBlocks, if_pos hlt, keyMerge, if_pos hlt,
        if_neg (by simp), List.nil_append]
      exact ih (blocksWf_tail hx) hy
  | case4 x xs y ys hlt hlt2 ih =>
      intro hx hy
      rw [andLenBlocks, if_neg hlt, if_pos hlt2, keyMerge, if_neg hlt,
        if_pos hlt2, if_neg (by simp), List.nil_append]
      exact ih hx (blocksWf_tail hy)
  | case5 x xs y ys hlt hlt2 ih =>
      intro hx hy
      rw [andLenBlocks, if_neg hlt, if_neg hlt2, keyMerge, if_neg hlt,
        if_neg hlt2, blocksToList_append]
      have hIH := ih (blocksWf_tail hx) (blocksWf_tail hy)
      have hwx := blocksWf_head_wf hx
      have hwy := blocksWf_head_wf hy
      have hopand : (x.2.opAnd y.2).toList = sinter x.2.toList y.2.toList := by
        unfold Block.opAnd
        exact mkBlock_toList (sinter_sorted (Block.toList_sorted hwx))
          (fun a ha => Block.toList_bounded hwx a (mem_sinter.mp ha).1)
      have hcard : (Block.opAnd x.2 y.2).cardinality
          = (sinter x.2.toList y.2.toList).length := by
        rw [Block.cardinality_eq_length (Block.opAnd_wf hwx hwy), hopand]
      rw [List.length_append, hIH]
      congr 1
      split
      · rename_i hc0
        have h0 : blocksToList ([] : List (Nat × Block)) = [] := rfl
        rw [h0, List.length_nil]
        omega
      · rw [blocksToList_cons]
        have h0 : blocksToList ([] : List (Nat × Block)) = [] := rfl
        rw [h0, List.append_nil, List.length_map, hopand]

theorem orLenBlocks_eq :
    ∀ xs ys : List (Nat × Block), blocksWf xs → blocksWf ys →
      orLenBlocks xs ys =
        (blocksToList (keyMerge Block.opOr true true xs ys)).length := by
  intro xs ys
  induction xs, ys using orLenBlocks.induct with
  | case1 ys =>
      intro _ hy
      rw [orLenBlocks, keyMerge, if_pos rfl, blocksToList_length ys hy]
  | case2 x xs =>
      intro hx _
      rw [orLenBlocks, keyMerge, if_pos rfl, blocksToList_length _ hx]
  | case3 x xs y ys hlt ih =>
      intro hx hy
      have hIH := ih (blocksWf_tail hx) hy
      have hwx := blocksWf_head_wf hx
      rw [orLenBlocks, if_pos hlt, keyMerge, if_pos hlt, if_pos rfl,
        List.singleton_append, blocksToList_cons, List.length_append,
        List.length_map, hIH, Block.cardinality_eq_length hwx]
  | case4 x xs y ys hlt hlt2 ih =>
      intro hx hy
      have hIH := ih hx (blocksWf_tail hy)
      have hwy := blocksWf_head_wf hy
      rw [orLenBlocks, if_neg hlt, if_pos hlt2, keyMerge, if_neg hlt,
        if_pos hlt2, if_pos rfl, List.singleton_append, blocksToList_cons,
        List.length_append, List.length_map, hIH,
        Block.cardinality_eq_length hwy]
  | case5 x xs y ys hlt hlt2 ih =>
      intro hx hy
      rw [orLenBlocks, if_neg hlt, if_neg hlt2, keyMerge, if_neg hlt,
        if_neg hlt2, blocksToList_append]
      have hIH := ih (blocksWf_tail hx) (blocksWf_tail hy)
      have hwx := blocksWf_head_wf hx
      have hwy := blocksWf_head_wf hy
      have hopor : (x.2.opOr y.2).toList = smerge x.2.toList y.2.toList := by
        unfold Block.opOr
        apply mkBlock_toList
          (smerge_sorted _ _ (Block.toList_sorted hwx) (Block.toList_sorted hwy))
        intro a ha
        rcases (mem_smerge _ _).mp ha with h | h
        · exact Block.toList_bounded hwx a h
        · exact Block.toList_bounded hwy a h
      have hcard : (Block.opOr x.2 y.2).cardinality
          = (smerge x.2.toList y.2.toList).length := by
        rw [Block.cardinality_eq_length (Block.opOr_wf hwx hwy), hopor]
      rw [List.length_append, hIH]
      congr 1
      split
      · rename_i hc0
        have h0 : blocksToList ([] : List (Nat × Block)) = [] := rfl
        rw [h0, List.length_nil]
        omega
      · rw [blocksToList_cons]
        have h0 : blocksToList ([] : List (Nat × Block)) = [] := rfl
        rw [h0, List.append_nil, List.length_map, hopor]

theorem RoaringBitmap.intersection_len_eq {a b : RoaringBitmap}
    (ha : a.wf) (hb : b.wf) :
    a.intersection_len b = (a.and b).cardinality :=
  andLenBlocks_eq a.blocks b.blocks ha hb

theorem RoaringBitmap.union_len_eq {a b : RoaringBitmap}
    (ha : a.wf) (hb : b.wf) :
    a.union_len b = (a.or b).cardinality :=
  orLenBlocks_eq a.blocks b.blocks ha hb

/-! ### Internal consistency check (spec §4.3 "Invariants maintained") -/

/-- Modelled from the spec (§4.3): the internal consistency check
verifies key ordering, non-empty blocks, per-block invariants, and
cardinality accounting (the recorded per-block cardinalities sum to the
number of stored values). -/
def RoaringBitmap.checkConsistency (rb : RoaringBitmap) : Bool :=
  decide ((rb.blocks.map Prod.fst).Pairwise (· < ·)) &&
  rb.blocks.all (fun p => decide (p.1 < 65536) && decide p.2.wf &&
    decide (p.2.cardinality ≠ 0)) &&
  ((rb.blocks.map (fun p => p.2.cardinality)).sum == rb.cardinality)

theorem RoaringBitmap.checkConsistency_of_wf {rb : RoaringBitmap}
    (h : rb.wf) : rb.checkConsistency = true := by
  unfold RoaringBitmap.checkConsistency
  rw [Bool.and_eq_true, Bool.and_eq_true]
  refine ⟨⟨decide_eq_true h.1, ?_⟩, ?_⟩
  · rw [List.all_eq_true]
    intro p hp
    obtain ⟨h1, h2, h3⟩ := h.2 p hp
    rw [Bool.and_eq_true, Bool.and_eq_true]
    exact ⟨⟨decide_eq_true h1, decide_eq_true h2⟩, decide_eq_true h3⟩
  · rw [Nat.beq_eq_true_eq]
    exact (blocksToList_length rb.blocks h).symm

/-- The element set of a well-formed bitmap has exactly `cardinality`
members. -/
theorem RoaringBitmap.toSet_ncard {rb : RoaringBitmap} (h : rb.wf) :
    rb.toSet.ncard = rb.cardinality := by
  have hnd : rb.toList.Nodup := (blocksToList_sorted h).imp Nat.ne_of_lt
  have hset : rb.toSet = (rb.toList.toFinset : Set Nat) := by
    ext v
    show v ∈ rb.toList ↔ _
    rw [List.coe_toFinset]
    exact Iff.rfl
  rw [hset, Set.ncard_coe_Finset, List.toFinset_card_of_nodup hnd]
  rfl

/-! ### Serialization primitives (spec §6, little-endian throughout) -/

/-- Little-endian bytes of a 16-bit value. -/
def u16Bytes (n : Nat) : List Nat := [n % 256, n / 256 % 256]

/-- Little-endian bytes of a 32-bit value. -/
def u32Bytes (n : Nat) : List Nat :=
  [n % 256, n / 256 % 256, n / 65536 % 256, n / 16777216 % 256]

/-- Little-endian bytes of a 64-bit value. -/
def u64Bytes (n : Nat) : List Nat :=
  [n % 256, n / 256 % 256, n / 65536 % 256, n / 16777216 % 256,
   n / 4294967296 % 256, n / 1099511627776 % 256,
   n / 281474976710656 % 256, n / 72057594037927936 % 256]

/-- Read a little-endian 16-bit value from the head of a byte list. -/
def readU16 (bs : List Nat) : Nat := bs.getD 0 0 + 256 * bs.getD 1 0

/-- Read a little-endian 32-bit value from the head of a byte list. -/
def readU32 (bs : List Nat) : Nat :=
  bs.getD 0 0 + 256 * bs.getD 1 0 + 65536 * bs.getD 2 0
    + 16777216 * bs.getD 3 0

/-- Read a little-endian 64-bit value from the head of a byte list. -/
def readU64 (bs : List Nat) : Nat :=
  bs.getD 0 0 + 256 * bs.getD 1 0 + 65536 * bs.getD 2 0
    + 16777216 * bs.getD 3 0 + 4294967296 * bs.getD 4 0
    + 1099511627776 * bs.getD 5 0 + 281474976710656 * bs.getD 6 0
    + 72057594037927936 * bs.getD 7 0

theorem readU16_u16Bytes {n : Nat} (h : n < 65536) (t : List Nat) :
    readU16 (u16Bytes n ++ t) = n := by
  simp [readU16, u16Bytes]
  omega

theorem readU32_u32Bytes {n : Nat} (h : n < 4294967296) (t : List Nat) :
    readU32 (u32Bytes n ++ t) = n := by
  simp [readU32, u32Bytes]
  omega

theorem readU64_u64Bytes {n : Nat} (h : n < 18446744073709551616)
    (t : List Nat) : readU64 (u64Bytes n ++ t) = n := by
  simp [readU64, u64Bytes]
  omega

theorem drop2_u16Bytes (n : Nat) (t : List Nat) :
    (u16Bytes n ++ t).drop 2 = t := rfl

theorem drop4_u32Bytes (n : Nat) (t : List Nat) :
    (u32Bytes n ++ t).drop 4 = t := rfl

theorem drop8_u64Bytes (n : Nat) (t : List Nat) :
    (u64Bytes n ++ t).drop 8 = t := rfl

/-- Read `c` consecutive little-endian 16-bit values. -/
def readU16s : List Nat → Nat → List Nat
  | _, 0 => []
  | bs, c + 1 => readU16 bs :: readU16s (bs.drop 2) c

/-- Read `c` consecutive little-endian 32-bit values. -/
def readU32s : List Nat → Nat → List Nat
  | _, 0 => []
  | bs, c + 1 => readU32 bs :: readU32s (bs.drop 4) c

/-- Read `c` consecutive little-endian 64-bit values. -/
def readU64s : List Nat → Nat → List Nat
  | _, 0 => []
  | bs, c + 1 => readU64 bs :: readU64s (bs.drop 8) c

/-- Read `c` consecutive 4-byte block descriptors
`{u16 cardinality_minus_one, u8 variant, u8 reserved}` (spec §6 item 3),
returning (cardinality, variant) pairs. -/
def readDescs : List Nat → Nat → List (Nat × Nat)
  | _, 0 => []
  | bs, c + 1 => (readU16 bs + 1, bs.getD 2 0) :: readDescs (bs.drop 4) c

theorem readU16s_flatten :
    ∀ (ks : List Nat) (t : List Nat), (∀ k ∈ ks, k < 65536) →
      readU16s ((ks.map u16Bytes).flatten ++ t) ks.length = ks ∧
      ((ks.map u16Bytes).flatten ++ t).drop (2 * ks.length) = t := by
  intro ks
  induction ks with
  | nil => intro t _; exact ⟨rfl, rfl⟩
  | cons k ks ih =>
      intro t hb
      have hk : k < 65536 := hb k (List.mem_cons_self _ _)
      have hrest : ∀ x ∈ ks, x < 65536 :=
        fun x hx => hb x (List.mem_cons_of_mem _ hx)
      have hassoc : ((k :: ks).map u16Bytes).flatten ++ t
          = u16Bytes k ++ ((ks.map u16Bytes).flatten ++ t) := by
        rw [List.map_cons, List.flatten_cons, List.append_assoc]
      obtain ⟨ih1, ih2⟩ := ih t hrest
      constructor
      · rw [hassoc, List.length_cons, readU16s, readU16_u16Bytes hk,
          drop2_u16Bytes, ih1]
      · rw [hassoc, List.length_cons, show 2 * (ks.length + 1)
            = 2 + 2 * ks.length by ring, ← List.drop_drop,
          show (u16Bytes k ++ ((ks.map u16Bytes).flatten ++ t)).drop 2
            = (ks.map u16Bytes).flatten ++ t from rfl, ih2]

theorem readU32s_flatten :
    ∀ (ks : List Nat) (t : List Nat), (∀ k ∈ ks, k < 4294967296) →
      readU32s ((ks.map u32Bytes).flatten ++ t) ks.length = ks ∧
      ((ks.map u32Bytes).flatten ++ t).drop (4 * ks.length) = t := by
  intro ks
  induction ks with
  | nil => intro t _; exact ⟨rfl, rfl⟩
  | cons k ks ih =>
      intro t hb
      have hk : k < 4294967296 := hb k (List.mem_cons_self _ _)
      have hrest : ∀ x ∈ ks, x < 4294967296 :=
        fun x hx => hb x (List.mem_cons_of_mem _ hx)
      have hassoc : ((k :: ks).map u32Bytes).flatten ++ t
          = u32Bytes k ++ ((ks.map u32Bytes).flatten ++ t) := by
        rw [List.map_cons, List.flatten_cons, List.append_assoc]
      obtain ⟨ih1, ih2⟩ := ih t hrest
      constructor
      · rw [hassoc, List.length_cons, readU32s, readU32_u32Bytes hk,
          drop4_u32Bytes, ih1]
      · rw [hassoc, List.length_cons, show 4 * (ks.length + 1)
            = 4 + 4 * ks.length by ring, ← List.drop_drop,
          show (u32Bytes k ++ ((ks.map u32Bytes).flatten ++ t)).drop 4
            = (ks.map u32Bytes).flatten ++ t from rfl, ih2]

theorem readU64s_flatten :
    ∀ (ks : List Nat) (t : List Nat), (∀ k ∈ ks, k < 18446744073709551616) →
      readU64s ((ks.map u64Bytes).flatten ++ t) ks.length = ks ∧
      ((ks.map u64Bytes).flatten ++ t).drop (8 * ks.length) = t := by
  intro ks
  induction ks with
  | nil => intro t _; exact ⟨rfl, rfl⟩
  | cons k ks ih =>
      intro t hb
      have hk : k < 18446744073709551616 := hb k (List.mem_cons_self _ _)
      have hrest : ∀ x ∈ ks, x < 18446744073709551616 :=
        fun x hx => hb x (List.mem_cons_of_mem _ hx)
      have hassoc : ((k :: ks).map u64Bytes).flatten ++ t
          = u64Bytes k ++ ((ks.map u64Bytes).flatten ++ t) := by
        rw [List.map_cons, List.flatten_cons, List.append_assoc]
      obtain ⟨ih1, ih2⟩ := ih t hrest
      constructor
      · rw [hassoc, List.length_cons, readU64s, readU64_u64Bytes hk,
          drop8_u64Bytes, ih1]
      · rw [hassoc, List.length_cons, show 8 * (ks.length + 1)
            = 8 + 8 * ks.length by ring, ← List.drop_drop,
          show (u64Bytes k ++ ((ks.map u64Bytes).flatten ++ t)).drop 8
            = (ks.map u64Bytes).flatten ++ t from rfl, ih2]

theorem readDescs_flatten :
    ∀ (ds : List (Nat × Nat)) (t : List Nat),
      (∀ d ∈ ds, 1 ≤ d.1 ∧ d.1 ≤ 65536) →
      readDescs ((ds.map (fun d => u16Bytes (d.1 - 1) ++ [d.2, 0])).flatten ++ t)
          ds.length = ds ∧
      ((ds.map (fun d => u16Bytes (d.1 - 1) ++ [d.2, 0])).flatten ++ t).drop
          (4 * ds.length) = t := by
  intro ds
  induction ds with
  | nil => intro t _; exact ⟨rfl, rfl⟩
  | cons d ds ih =>
      intro t hb
      have hd := hb d (List.mem_cons_self _ _)
      have hrest : ∀ x ∈ ds, 1 ≤ x.1 ∧ x.1 ≤ 65536 :=
        fun x hx => hb x (List.mem_cons_of_mem _ hx)
      have hassoc : ((d :: ds).map (fun d => u16Bytes (d.1 - 1) ++ [d.2, 0])).flatten ++ t
          = (d.1 - 1) % 256 :: (d.1 - 1) / 256 % 256 :: d.2 :: 0 ::
            ((ds.map (fun d => u16Bytes (d.1 - 1) ++ [d.2, 0])).flatten ++ t) := by
        rw [List.map_cons, List.flatten_cons, List.append_assoc]
        rfl
      obtain ⟨ih1, ih2⟩ := ih t hrest
      constructor
      · rw [hassoc, List.length_cons, readDescs]
        have h16 : readU16 ((d.1 - 1) % 256 :: (d.1 - 1) / 256 % 256 :: d.2 :: 0 ::
            ((ds.map (fun d => u16Bytes (d.1 - 1) ++ [d.2, 0])).flatten ++ t))
            = d.1 - 1 := by
          simp [readU16]
          omega
        rw [h16]
        have hcons : (d.1 - 1 + 1, ((d.1 - 1) % 256 :: (d.1 - 1) / 256 % 256 :: d.2 :: 0 ::
            ((ds.map (fun d => u16Bytes (d.1 - 1) ++ [d.2, 0])).flatten ++ t)).getD 2 0)
            = d := by
          have : d.1 - 1 + 1 = d.1 := by omega
          rw [this]
          rfl
        rw [hcons,
          show List.drop 4 ((d.1 - 1) % 256 :: (d.1 - 1) / 256 % 256 :: d.2 :: 0 ::
              ((ds.map (fun d => u16Bytes (d.1 - 1) ++ [d.2, 0])).flatten ++ t))
            = (ds.map (fun d => u16Bytes (d.1 - 1) ++ [d.2, 0])).flatten ++ t from rfl,
          ih1]
      · rw [hassoc, List.length_cons, show 4 * (ds.length + 1)
            = 4 + 4 * ds.length by ring, ← List.drop_drop]
        exact ih2

/-! ### Serializer and deserializer (spec §4.6, §6) -/

/-- Modelled from the spec (§6 item 5): a block's payload bytes — `uint16`
per element for the positive array, 1024 little-endian 64-bit words for
the dense bitmap, `uint16` per absentee for the inverted array. -/
def serializeBlockPayload : Block → List Nat
  | Block.positive es => (es.map u16Bytes).flatten
  | Block.dense ws => (ws.map u64Bytes).flatten
  | Block.inverted ab => (ab.map u16Bytes).flatten

/-- Variant tag of the layout (§6 item 3): 0 = positive array, 1 = dense,
2 = inverted array. -/
def variantTag : Block → Nat
  | Block.positive _ => 0
  | Block.dense _ => 1
  | Block.inverted _ => 2

/-- Zero padding inserted before a dense payload so that it starts on a
32-byte boundary (§6 item 5); array payloads need no padding. -/
def padLen (b : Block) (pos : Nat) : Nat :=
  match b with
  | Block.dense _ => (32 - pos % 32) % 32
  | _ => 0

/-- Modelled from the spec (§6 items 4–5): lay the block payloads out one
after another from byte position `pos` of the payload region, recording
each block's byte offset and inserting zero padding before dense
payloads. -/
def buildPayloadAux : List (Nat × Block) → Nat → (List Nat × List Nat)
  | [], _ => ([], [])
  | p :: rest, pos =>
      ((pos + padLen p.2 pos) ::
          (buildPayloadAux rest
            (pos + padLen p.2 pos + (serializeBlockPayload p.2).length)).1,
        (List.replicate (padLen p.2 pos) 0 ++ serializeBlockPayload p.2) ++
          (buildPayloadAux rest
            (pos + padLen p.2 pos + (serializeBlockPayload p.2).length)).2)

/-- Modelled from the spec (§6): the serialized byte image of a bitmap —
`uint32 num_blocks`, the ascending `uint16` keys, the per-block
descriptors `{u16 cardinality−1, u8 variant, u8 reserved}`, the `uint32`
payload offsets relative to the payload region, then the padded payload
region. -/
def serialize (rb : RoaringBitmap) : List Nat :=
  u32Bytes rb.blocks.length
    ++ (rb.blocks.map (fun p => u16Bytes p.1)).flatten
    ++ (rb.blocks.map (fun p =>
        u16Bytes (p.2.cardinality - 1) ++ [variantTag p.2, 0])).flatten
    ++ ((buildPayloadAux rb.blocks 0).1.map u32Bytes).flatten
    ++ (buildPayloadAux rb.blocks 0).2

/-- Read-only bitmap overlay produced by the deserializer (spec §4.4):
carries the same abstract content as a mutable bitmap; the borrowed
byte-buffer mechanics are not observable in the value model. -/
structure ImmutableRoaringBitmap where
  rb : RoaringBitmap
deriving DecidableEq

/-- Modelled from the spec (§6): decode one block from its payload bytes,
guided by the descriptor's variant tag and cardinality. -/
def parseBlock (variant card : Nat) (payload : List Nat) : Option Block :=
  if variant = 0 then some (Block.positive (readU16s payload card))
  else if variant = 1 then some (Block.dense (readU64s payload 1024))
  else if variant = 2 then
    some (Block.inverted (readU16s payload (65536 - card)))
  else none

/-- Rebuild the key→block sequence from the parsed keys, descriptors and
offsets, reading each block's payload at its declared offset into the
payload region; fails on any inconsistency. -/
def buildBlocks :
    List Nat → List (Nat × Nat) → List Nat → List Nat →
      Option (List (Nat × Block))
  | [], [], [], _ => some []
  | k :: ks, d :: ds, o :: os, region =>
      match parseBlock d.2 d.1 (region.drop o), buildBlocks ks ds os region with
      | some b, some rest => some ((k, b) :: rest)
      | _, _ => none
  | _, _, _, _ => none

/-- Modelled from the spec (§4.6, §6): decode a serialized bitmap into an
immutable overlay, interpreting the payload bytes in place. -/
def deserialize (bs : List Nat) : Option ImmutableRoaringBitmap :=
  match buildBlocks
      (readU16s (bs.drop 4) (readU32 bs))
      (readDescs ((bs.drop 4).drop (2 * readU32 bs)) (readU32 bs))
      (readU32s (((bs.drop 4).drop (2 * readU32 bs)).drop (4 * readU32 bs))
        (readU32 bs))
      ((((bs.drop 4).drop (2 * readU32 bs)).drop (4 * readU32 bs)).drop
        (4 * readU32 bs)) with
  | some blocks => some ⟨⟨blocks⟩⟩
  | none => none

theorem length_flatten_u16 :
    ∀ l : List Nat, ((l.map u16Bytes).flatten).length = 2 * l.length := by
  intro l
  induction l with
  | nil => rfl
  | cons x l ih =>
      rw [List.map_cons, List.flatten_cons, List.length_append, ih]
      show 2 + 2 * l.length = 2 * (l.length + 1)
      ring

theorem length_flatten_u64 :
    ∀ l : List Nat, ((l.map u64Bytes).flatten).length = 8 * l.length := by
  intro l
  induction l with
  | nil => rfl
  | cons x l ih =>
      rw [List.map_cons, List.flatten_cons, List.length_append, ih]
      show 8 + 8 * l.length = 8 * (l.length + 1)
      ring

theorem serializeBlockPayload_length {b : Block} (h : b.wf) :
    (serializeBlockPayload b).length ≤ 8192 := by
  match b with
  | Block.positive es =>
      show ((es.map u16Bytes).flatten).length ≤ 8192
      rw [length_flatten_u16]
      have := h.2.2
      omega
  | Block.dense ws =>
      show ((ws.map u64Bytes).flatten).length ≤ 8192
      rw [length_flatten_u64, h.1]
  | Block.inverted ab =>
      show ((ab.map u16Bytes).flatten).length ≤ 8192
      rw [length_flatten_u16]
      have := h.2.2
      omega

theorem buildPayloadAux_spec :
    ∀ (bs : List (Nat × Block)) (pos : Nat), (∀ p ∈ bs, (p.2 : Block).wf) →
      (buildPayloadAux bs pos).1.length = bs.length ∧
      (buildPayloadAux bs pos).2.length ≤ bs.length * 8223 ∧
      (∀ o ∈ (buildPayloadAux bs pos).1,
        pos ≤ o ∧ o ≤ pos + (buildPayloadAux bs pos).2.length) := by
  intro bs
  induction bs with
  | nil =>
      intro pos _
      exact ⟨rfl, by simp [buildPayloadAux], by simp [buildPayloadAux]⟩
  | cons p rest ih =>
      intro pos hwf
      have hpwf := hwf p (List.mem_cons_self _ _)
      have hrest : ∀ q ∈ rest, (q.2 : Block).wf :=
        fun q hq => hwf q (List.mem_cons_of_mem _ hq)
      have hpad : padLen p.2 pos ≤ 31 := by
        match p.2 with
        | Block.dense ws =>
            show (32 - pos % 32) % 32 ≤ 31
            omega
        | Block.positive es => show 0 ≤ 31; omega
        | Block.inverted ab => show 0 ≤ 31; omega
      have hpl := serializeBlockPayload_length hpwf
      obtain ⟨ih1, ih2, ih3⟩ :=
        ih (pos + padLen p.2 pos + (serializeBlockPayload p.2).length) hrest
      rw [buildPayloadAux]
      refine ⟨by simpa using ih1, ?_, ?_⟩
      · simp only [List.length_append, List.length_replicate, List.length_cons]
        have := ih2
        calc padLen p.2 pos + (serializeBlockPayload p.2).length +
              (buildPayloadAux rest
                (pos + padLen p.2 pos + (serializeBlockPayload p.2).length)).2.length
            ≤ 31 + 8192 + rest.length * 8223 := by omega
          _ ≤ (rest.length + 1) * 8223 := by ring_nf; omega
      · intro o ho
        rcases List.mem_cons.mp ho with rfl | ho2
        · constructor
          · omega
          · simp only [List.length_append, List.length_replicate]
            omega
        · have := ih3 o ho2
          constructor
          · omega
          · simp only [List.length_append, List.length_replicate]
            omega

theorem parseBlock_payload {b : Block} (h : b.wf) (t : List Nat) :
    parseBlock (variantTag b) b.cardinality (serializeBlockPayload b ++ t)
      = some b := by
  match b with
  | Block.positive es =>
      show parseBlock 0 es.length ((es.map u16Bytes).flatten ++ t) = _
      unfold parseBlock
      rw [if_pos rfl, (readU16s_flatten es t h.2.1).1]
  | Block.dense ws =>
      show parseBlock 1 _ ((ws.map u64Bytes).flatten ++ t) = _
      unfold parseBlock
      rw [if_neg (by omega), if_pos rfl]
      have hr := (readU64s_flatten ws t h.2.1).1
      rw [h.1] at hr
      rw [hr]
  | Block.inverted ab =>
      show parseBlock 2 (65536 - ab.length) ((ab.map u16Bytes).flatten ++ t) = _
      unfold parseBlock
      rw [if_neg (by omega), if_neg (by omega), if_pos rfl]
      have hlen : 65536 - (65536 - ab.length) = ab.length := by
        have := h.2.2
        omega
      rw [hlen, (readU16s_flatten ab t h.2.1).1]

theorem drop_two_prefixes (a b rest : List Nat) :
    (a ++ (b ++ rest)).drop (a.length + b.length) = rest := by
  rw [← List.append_assoc, List.drop_left' (by rw [List.length_append])]

theorem buildPayload_parse :
    ∀ (bs : List (Nat × Block)) (pos : Nat) (pre t : List Nat),
      pre.length = pos →
      (∀ p ∈ bs, (p.2 : Block).wf) →
      buildBlocks (bs.map Prod.fst)
        (bs.map (fun p => ((p.2 : Block).cardinality, variantTag p.2)))
        (buildPayloadAux bs pos).1
        (pre ++ (buildPayloadAux bs pos).2 ++ t)
      = some bs := by
  intro bs
  induction bs with
  | nil => intro pos pre t _ _; rfl
  | cons p rest ih =>
      intro pos pre t hpre hwf
      have hpwf := hwf p (List.mem_cons_self _ _)
      have hrest : ∀ q ∈ rest, (q.2 : Block).wf :=
        fun q hq => hwf q (List.mem_cons_of_mem _ hq)
      rw [List.map_cons, List.map_cons, buildPayloadAux, buildBlocks]
      simp only [List.append_assoc]
      have hdrop : (pre ++ (List.replicate (padLen p.2 pos) 0 ++
          (serializeBlockPayload p.2 ++
            ((buildPayloadAux rest (pos + padLen p.2 pos +
              (serializeBlockPayload p.2).length)).2 ++ t)))).drop
            (pos + padLen p.2 pos)
          = serializeBlockPayload p.2 ++
            ((buildPayloadAux rest (pos + padLen p.2 pos +
              (serializeBlockPayload p.2).length)).2 ++ t) := by
        have := drop_two_prefixes pre (List.replicate (padLen p.2 pos) 0)
          (serializeBlockPayload p.2 ++
            ((buildPayloadAux rest (pos + padLen p.2 pos +
              (serializeBlockPayload p.2).length)).2 ++ t))
        rwa [hpre, List.length_replicate] at this
      rw [hdrop]
      have hparse := parseBlock_payload hpwf
        ((buildPayloadAux rest (pos + padLen p.2 pos +
          (serializeBlockPayload p.2).length)).2 ++ t)
      rw [← List.append_assoc] at hparse
      rw [List.append_assoc] at hparse
      rw [hparse]
      have hIH := ih (pos + padLen p.2 pos + (serializeBlockPayload p.2).length)
        (pre ++ (List.replicate (padLen p.2 pos) 0 ++ serializeBlockPayload p.2))
        t
        (by
          rw [List.length_append, List.length_append, List.length_replicate,
            hpre]
          omega)
        hrest
      simp only [List.append_assoc] at hIH
      rw [hIH]

/-- Full round trip: deserializing the serialized image of a well-formed
bitmap recovers it exactly, as an immutable overlay. -/
theorem deserialize_serialize {rb : RoaringBitmap} (h : rb.wf) :
    deserialize (serialize rb) = some ⟨rb⟩ := by
  have hkeysorted : (rb.blocks.map Prod.fst).Pairwise (· < ·) := h.1
  have hkeybound : ∀ k ∈ rb.blocks.map Prod.fst, k < 65536 := by
    intro k hk
    rcases List.mem_map.mp hk with ⟨p, hp, rfl⟩
    exact (h.2 p hp).1
  have hn : rb.blocks.length ≤ 65536 := by
    have := length_le_of_sorted_bounded hkeysorted hkeybound
    rwa [List.length_map] at this
  have hwfall : ∀ p ∈ rb.blocks, (p.2 : Block).wf := fun p hp => (h.2 p hp).2.1
  obtain ⟨hofflen, hbyteslen, hoffbound⟩ :=
    buildPayloadAux_spec rb.blocks 0 hwfall
  have hcards : ∀ d ∈ rb.blocks.map
      (fun p => ((p.2 : Block).cardinality, variantTag p.2)),
      1 ≤ d.1 ∧ d.1 ≤ 65536 := by
    intro d hd
    rcases List.mem_map.mp hd with ⟨p, hp, rfl⟩
    obtain ⟨_, hwfp, hcp⟩ := h.2 p hp
    constructor
    · omega
    · rw [Block.cardinality_eq_length hwfp]
      exact length_le_of_sorted_bounded (Block.toList_sorted hwfp)
        (Block.toList_bounded hwfp)
  have hoffs32 : ∀ o ∈ (buildPayloadAux rb.blocks 0).1, o < 4294967296 := by
    intro o ho
    have h1 := hoffbound o ho
    have : (buildPayloadAux rb.blocks 0).2.length ≤ 65536 * 8223 := by
      calc (buildPayloadAux rb.blocks 0).2.length
          ≤ rb.blocks.length * 8223 := hbyteslen
        _ ≤ 65536 * 8223 := by
            have := hn
            exact Nat.mul_le_mul_right _ hn
    omega
  -- the serialized image, fully right-associated
  have hser : serialize rb
      = u32Bytes rb.blocks.length ++
        (((rb.blocks.map Prod.fst).map u16Bytes).flatten ++
        (((rb.blocks.map (fun p => ((p.2 : Block).cardinality, variantTag p.2))).map
            (fun d => u16Bytes (d.1 - 1) ++ [d.2, 0])).flatten ++
        (((buildPayloadAux rb.blocks 0).1.map u32Bytes).flatten ++
          (buildPayloadAux rb.blocks 0).2))) := by
    unfold serialize
    rw [List.map_map, List.map_map]
    simp only [List.append_assoc]
    rfl
  -- read back the block count
  have hread32 : readU32 (serialize rb) = rb.blocks.length := by
    rw [hser]
    exact readU32_u32Bytes (by omega) _
  have hdrop4 : (serialize rb).drop 4
      = ((rb.blocks.map Prod.fst).map u16Bytes).flatten ++
        (((rb.blocks.map (fun p => ((p.2 : Block).cardinality, variantTag p.2))).map
            (fun d => u16Bytes (d.1 - 1) ++ [d.2, 0])).flatten ++
        (((buildPayloadAux rb.blocks 0).1.map u32Bytes).flatten ++
          (buildPayloadAux rb.blocks 0).2)) := by
    rw [hser]
    exact drop4_u32Bytes _ _
  have hkeysread := readU16s_flatten (rb.blocks.map Prod.fst)
    (((rb.blocks.map (fun p => ((p.2 : Block).cardinality, variantTag p.2))).map
        (fun d => u16Bytes (d.1 - 1) ++ [d.2, 0])).flatten ++
      (((buildPayloadAux rb.blocks 0).1.map u32Bytes).flatten ++
        (buildPayloadAux rb.blocks 0).2)) hkeybound
  have hdescsread := readDescs_flatten
    (rb.blocks.map (fun p => ((p.2 : Block).cardinality, variantTag p.2)))
    (((buildPayloadAux rb.blocks 0).1.map u32Bytes).flatten ++
      (buildPayloadAux rb.blocks 0).2) hcards
  have hoffsread := readU32s_flatten (buildPayloadAux rb.blocks 0).1
    ((buildPayloadAux rb.blocks 0).2) hoffs32
  have hlen1 : (rb.blocks.map Prod.fst).length = rb.blocks.length :=
    List.length_map _ _
  have hlen2 : (rb.blocks.map
      (fun p => ((p.2 : Block).cardinality, variantTag p.2))).length
      = rb.blocks.length := List.length_map _ _
  rw [hlen1] at hkeysread
  rw [hlen2] at hdescsread
  rw [hofflen] at hoffsread
  unfold deserialize
  rw [hread32, hdrop4, hkeysread.2, hkeysread.1, hdescsread.2, hdescsread.1,
    hoffsread.2, hoffsread.1]
  have hparse := buildPayload_parse rb.blocks 0 [] [] rfl hwfall
  rw [List.nil_append, List.append_nil] at hparse
  rw [hparse]

/-! ### Multi-Bitmap (spec §4.5) -/

/-- Modelled from the spec (§3, §4.5): an ordered sequence of immutable
bitmaps sharing one buffer; a null entry means "no bitmap at this slot". -/
structure MultiRoaringBitmap where
  slots : List (Option ImmutableRoaringBitmap)

def slotWf : Option ImmutableRoaringBitmap → Prop
  | none => True
  | some irb => irb.rb.wf

instance instDecidableSlotWf : (s : Option ImmutableRoaringBitmap) →
    Decidable (slotWf s)
  | none => inferInstanceAs (Decidable True)
  | some irb => inferInstanceAs (Decidable irb.rb.wf)

def MultiRoaringBitmap.wf (m : MultiRoaringBitmap) : Prop :=
  ∀ s ∈ m.slots, slotWf s

instance instDecidableMrbWf (m : MultiRoaringBitmap) : Decidable m.wf :=
  inferInstanceAs (Decidable (∀ s ∈ m.slots, slotWf s))

/-- Collect the bitmaps at the given ordinals; none if any ordinal is out
of range or points at a null slot. -/
def gatherSlots (slots : List (Option ImmutableRoaringBitmap)) :
    List Nat → Option (List RoaringBitmap)
  | [] => some []
  | i :: rest =>
      match slots.getD i none, gatherSlots slots rest with
      | some irb, some l => some (irb.rb :: l)
      | _, _ => none

/-- Modelled from the spec (§4.5 folded intersection): intersect the
bitmaps at the given ordinals; if any index points at a null slot or the
result is empty, return null; the optional [start, stop) restriction
defaults to the full value domain.  The spec does not define a fold over
zero ordinals, so an empty ordinal list also yields null. -/
def MultiRoaringBitmap.intersection (m : MultiRoaringBitmap)
    (indices : List Nat) (start stop : Option Nat) : Option RoaringBitmap :=
  match gatherSlots m.slots indices with
  | none => none
  | some [] => none
  | some (first :: others) =>
      if ((others.foldl RoaringBitmap.and first).clamp
          (start.getD 0) (stop.getD 4294967296)).cardinality = 0 then none
      else some ((others.foldl RoaringBitmap.and first).clamp
          (start.getD 0) (stop.getD 4294967296))

theorem foldl_and_spec :
    ∀ (others : List RoaringBitmap) (first : RoaringBitmap), first.wf →
      (∀ r ∈ others, r.wf) →
      (others.foldl RoaringBitmap.and first).wf ∧
      (∀ v, v ∈ (others.foldl RoaringBitmap.and first).toList ↔
        v ∈ first.toList ∧ ∀ r ∈ others, v ∈ r.toList) := by
  intro others
  induction others with
  | nil =>
      intro first h _
      exact ⟨h, fun v => by simp⟩
  | cons r others ih =>
      intro first h hall
      have hr : r.wf := hall r (List.mem_cons_self _ _)
      have hrest : ∀ q ∈ others, q.wf :=
        fun q hq => hall q (List.mem_cons_of_mem _ hq)
      obtain ⟨ih1, ih2⟩ := ih (first.and r) (RoaringBitmap.and_wf h hr) hrest
      rw [List.foldl_cons]
      refine ⟨ih1, fun v => ?_⟩
      rw [ih2 v, RoaringBitmap.mem_and h hr v]
      constructor
      · rintro ⟨⟨h1, h2⟩, h3⟩
        refine ⟨h1, ?_⟩
        intro q hq
        rcases List.mem_cons.mp hq with rfl | hq2
        · exact h2
        · exact h3 q hq2
      · rintro ⟨h1, h2⟩
        exact ⟨⟨h1, h2 r (List.mem_cons_self _ _)⟩,
          fun q hq => h2 q (List.mem_cons_of_mem _ hq)⟩

theorem gatherSlots_eq_none :
    ∀ (slots : List (Option ImmutableRoaringBitmap)) (idcs : List Nat),
      gatherSlots slots idcs = none ↔
        ∃ i ∈ idcs, slots.getD i none = none := by
  intro slots idcs
  induction idcs with
  | nil => simp [gatherSlots]
  | cons i rest ih =>
      rw [gatherSlots]
      constructor
      · intro h
        match hs : slots.getD i none, hg : gatherSlots slots rest with
        | some irb, some l =>
            rw [hs, hg] at h
            cases h
        | some irb, none =>
            rcases ih.mp hg with ⟨j, hj, hnone⟩
            exact ⟨j, List.mem_cons_of_mem _ hj, hnone⟩
        | none, _ =>
            exact ⟨i, List.mem_cons_self _ _, hs⟩
      · rintro ⟨j, hj, hnone⟩
        rcases List.mem_cons.mp hj with rfl | hj2
        · rw [hnone]
        · match hs : slots.getD i none with
          | none => rfl
          | some irb =>
              rw [ih.mpr ⟨j, hj2, hnone⟩]

theorem gatherSlots_eq_some :
    ∀ (slots : List (Option ImmutableRoaringBitmap)) (idcs : List Nat)
      (l : List RoaringBitmap),
      gatherSlots slots idcs = some l →
      (∀ r ∈ l, ∃ i ∈ idcs, slots.getD i none = some ⟨r⟩) ∧
      (∀ v : Nat, (∀ r ∈ l, v ∈ r.toList) ↔
        (∀ i ∈ idcs, ∃ irb, slots.getD i none = some irb ∧ v ∈ irb.rb.toList)) ∧
      (l = [] ↔ idcs = []) := by
  intro slots idcs
  induction idcs with
  | nil =>
      intro l h
      have hl : l = [] := by
        rw [gatherSlots] at h
        injection h with h2
        exact h2.symm
      subst hl
      refine ⟨by simp, fun v => by simp, by simp⟩
  | cons i rest ih =>
      intro l h
      rw [gatherSlots] at h
      match hs : slots.getD i none, hg : gatherSlots slots rest with
      | some irb, some l2 =>
          rw [hs, hg] at h
          injection h with h2
          subst h2
          obtain ⟨ih1, ih2, _⟩ := ih l2 hg
          refine ⟨?_, ?_, by simp⟩
          · intro r hr
            rcases List.mem_cons.mp hr with rfl | hr2
            · exact ⟨i, List.mem_cons_self _ _, by rw [hs]⟩
            · rcases ih1 r hr2 with ⟨j, hj, hjs⟩
              exact ⟨j, List.mem_cons_of_mem _ hj, hjs⟩
          · intro v
            constructor
            · intro hv j hj
              rcases List.mem_cons.mp hj with rfl | hj2
              · exact ⟨irb, hs, hv irb.rb (List.mem_cons_self _ _)⟩
              · exact (ih2 v).mp
                  (fun r hr => hv r (List.mem_cons_of_mem _ hr)) j hj2
            · intro hv r hr
              rcases List.mem_cons.mp hr with rfl | hr2
              · rcases hv i (List.mem_cons_self _ _) with ⟨irb2, hs2, hm⟩
                rw [hs] at hs2
                injection hs2 with hs3
                rw [← hs3] at hm
                exact hm
              · exact (ih2 v).mpr
                  (fun j hj => hv j (List.mem_cons_of_mem _ hj)) r hr2
      | some irb, none =>
          rw [hs, hg] at h
          cases h
      | none, _ =>
          rw [hs] at h
          cases h

/-! ### Host-language comparison surface (spec §7 TypeMismatch) -/

/-- Host-language values a comparison may receive (spec §6 host
bindings).  Built-in sets and lists are distinguished because the unit
tests exercise both against bitmaps. -/
inductive PyValue where
  | bitmap (rb : RoaringBitmap)
  | pyset (xs : List Nat)
  | pylist (xs : List Nat)
  | other
deriving DecidableEq

/-- The six rich-comparison operators of the host language. -/
inductive CmpOp where
  | eq | ne | lt | le | gt | ge
deriving DecidableEq

/-- Element-set equality of a bitmap against a plain collection. -/
def sameElements (rb : RoaringBitmap) (xs : List Nat) : Bool :=
  decide (∀ v ∈ rb.toList, v ∈ xs) && decide (∀ v ∈ xs, v ∈ rb.toList)

/-- Modelled from the spec (§7 TypeMismatch: "comparisons or
set-operators between a bitmap and an unrelated type") as constrained by
the unit tests: equality and inequality against another bitmap or a
built-in set compare element sets — test_inittrivial and test_initsorted
assert that `set == bitmap` holds rather than raising — while order
comparisons are defined only between bitmaps, and every other comparison
raises a type error (test_invalid asserts `bitmap < list` raises). -/
def RoaringBitmap.richcmp (rb : RoaringBitmap) (other : PyValue)
    (op : CmpOp) : Except RBError Bool :=
  match other, op with
  | PyValue.bitmap rb2, CmpOp.eq => Except.ok (sameElements rb rb2.toList)
  | PyValue.bitmap rb2, CmpOp.ne => Except.ok (!sameElements rb rb2.toList)
  | PyValue.bitmap rb2, CmpOp.le =>
      Except.ok (decide (∀ v ∈ rb.toList, v ∈ rb2.toList))
  | PyValue.bitmap rb2, CmpOp.lt =>
      Except.ok (decide (∀ v ∈ rb.toList, v ∈ rb2.toList) &&
        !sameElements rb rb2.toList)
  | PyValue.bitmap rb2, CmpOp.ge =>
      Except.ok (decide (∀ v ∈ rb2.toList, v ∈ rb.toList))
  | PyValue.bitmap rb2, CmpOp.gt =>
      Except.ok (decide (∀ v ∈ rb2.toList, v ∈ rb.toList) &&
        !sameElements rb rb2.toList)
  | PyValue.pyset xs, CmpOp.eq => Except.ok (sameElements rb xs)
  | PyValue.pyset xs, CmpOp.ne => Except.ok (!sameElements rb xs)
  | _, _ => Except.error RBError.typeMismatch

/-! ### Auxiliary order lemmas -/

theorem sorted_le_getLast :
    ∀ (l : List Nat), l.Pairwise (· < ·) → ∀ x ∈ l, ∀ (h : l ≠ []),
      x ≤ l.getLast h := by
  intro l
  induction l with
  | nil => intro _ x hx; cases hx
  | cons a l ih =>
      intro hs x hx h
      rw [List.pairwise_cons] at hs
      match l, hx with
      | [], hx =>
          rcases List.mem_singleton.mp hx with rfl
          rfl
      | b :: l2, hx =>
          rw [List.getLast_cons (by simp)]
          rcases List.mem_cons.mp hx with rfl | hx2
          · have hlast : (b :: l2).getLast (by simp) ∈ b :: l2 :=
              List.getLast_mem _
            have := hs.1 _ hlast
            omega
          · exact ih hs.2 x hx2 (by simp)

theorem getD_eq_some_mem {slots : List (Option ImmutableRoaringBitmap)}
    {i : Nat} {irb : ImmutableRoaringBitmap}
    (h : slots.getD i none = some irb) : some irb ∈ slots := by
  by_cases hi : i < slots.length
  · rw [List.getD_eq_getElem?_getD, List.getElem?_eq_getElem hi] at h
    simp only [Option.getD_some] at h
    rw [← h]
    exact List.getElem_mem hi
  · rw [List.getD_eq_getElem?_getD, List.getElem?_eq_none (by omega)] at h
    cases h

theorem RoaringBitmap.cardinality_eq_zero_iff {rb : RoaringBitmap} :
    rb.cardinality = 0 ↔ rb.toSet = ∅ := by
  unfold RoaringBitmap.cardinality
  rw [List.length_eq_zero]
  constructor
  · intro h
    ext v
    show v ∈ rb.toList ↔ v ∈ (∅ : Set Nat)
    rw [h]
    simp
  · intro h
    match he : rb.toList with
    | [] => rfl
    | x :: l =>
        have hx : x ∈ rb.toSet := by
          show x ∈ rb.toList
          rw [he]
          exact List.mem_cons_self _ _
        rw [h] at hx
        cases hx

/-! ### Set views of the operations -/

theorem RoaringBitmap.toSet_or {a b : RoaringBitmap} (ha : a.wf) (hb : b.wf) :
    (a.or b).toSet = a.toSet ∪ b.toSet := by
  ext v
  show v ∈ (a.or b).toList ↔ _
  rw [RoaringBitmap.mem_or ha hb v]
  exact Iff.rfl

theorem RoaringBitmap.toSet_and {a b : RoaringBitmap} (ha : a.wf) (hb : b.wf) :
    (a.and b).toSet = a.toSet ∩ b.toSet := by
  ext v
  show v ∈ (a.and b).toList ↔ _
  rw [RoaringBitmap.mem_and ha hb v]
  exact Iff.rfl

theorem RoaringBitmap.toSet_xor {a b : RoaringBitmap} (ha : a.wf) (hb : b.wf) :
    (a.xor b).toSet = (a.toSet \ b.toSet) ∪ (b.toSet \ a.toSet) := by
  ext v
  show v ∈ (a.xor b).toList ↔ _
  rw [RoaringBitmap.mem_xor ha hb v]
  exact Iff.rfl

theorem RoaringBitmap.toSet_sub {a b : RoaringBitmap} (ha : a.wf) (hb : b.wf) :
    (a.sub b).toSet = a.toSet \ b.toSet := by
  ext v
  show v ∈ (a.sub b).toList ↔ _
  rw [RoaringBitmap.mem_sub ha hb v]
  exact Iff.rfl

/-! ### The claims -/

/-- C1: For all bitmaps A and B, each of the four binary set operations
union, intersection, symmetric difference, and difference returns a
bitmap whose element set equals the corresponding operation on the naive
sets of A's and B's elements; and for each operation the functional form
and the in-place form yield element-equal results. -/
theorem claim_C1 (a b : RoaringBitmap) (ha : a.wf) (hb : b.wf) :
    ((a.or b).toSet = a.toSet ∪ b.toSet ∧
     (a.and b).toSet = a.toSet ∩ b.toSet ∧
     (a.xor b).toSet = (a.toSet \ b.toSet) ∪ (b.toSet \ a.toSet) ∧
     (a.sub b).toSet = a.toSet \ b.toSet) ∧
    ((a.ior b).toSet = (a.or b).toSet ∧
     (a.iand b).toSet = (a.and b).toSet ∧
     (a.ixor b).toSet = (a.xor b).toSet ∧
     (a.isub b).toSet = (a.sub b).toSet) :=
  ⟨⟨RoaringBitmap.toSet_or ha hb, RoaringBitmap.toSet_and ha hb,
    RoaringBitmap.toSet_xor ha hb, RoaringBitmap.toSet_sub ha hb⟩,
   rfl, rfl, rfl, rfl⟩

theorem claim_C1_witness :
    (RoaringBitmap.ofList [1, 2, 70000]).wf ∧
    (RoaringBitmap.ofList [2, 3]).wf ∧
    (((RoaringBitmap.ofList [1, 2, 70000]).or (RoaringBitmap.ofList [2, 3])).toSet
        = (RoaringBitmap.ofList [1, 2, 70000]).toSet ∪ (RoaringBitmap.ofList [2, 3]).toSet ∧
      ((RoaringBitmap.ofList [1, 2, 70000]).and (RoaringBitmap.ofList [2, 3])).toSet
        = (RoaringBitmap.ofList [1, 2, 70000]).toSet ∩ (RoaringBitmap.ofList [2, 3]).toSet ∧
      ((RoaringBitmap.ofList [1, 2, 70000]).xor (RoaringBitmap.ofList [2, 3])).toSet
        = ((RoaringBitmap.ofList [1, 2, 70000]).toSet \ (RoaringBitmap.ofList [2, 3]).toSet)
          ∪ ((RoaringBitmap.ofList [2, 3]).toSet \ (RoaringBitmap.ofList [1, 2, 70000]).toSet) ∧
      ((RoaringBitmap.ofList [1, 2, 70000]).sub (RoaringBitmap.ofList [2, 3])).toSet
        = (RoaringBitmap.ofList [1, 2, 70000]).toSet \ (RoaringBitmap.ofList [2, 3]).toSet) ∧
    (((RoaringBitmap.ofList [1, 2, 70000]).ior (RoaringBitmap.ofList [2, 3])).toSet
        = ((RoaringBitmap.ofList [1, 2, 70000]).or (RoaringBitmap.ofList [2, 3])).toSet ∧
      ((RoaringBitmap.ofList [1, 2, 70000]).iand (RoaringBitmap.ofList [2, 3])).toSet
        = ((RoaringBitmap.ofList [1, 2, 70000]).and (RoaringBitmap.ofList [2, 3])).toSet ∧
      ((RoaringBitmap.ofList [1, 2, 70000]).ixor (RoaringBitmap.ofList [2, 3])).toSet
        = ((RoaringBitmap.ofList [1, 2, 70000]).xor (RoaringBitmap.ofList [2, 3])).toSet ∧
      ((RoaringBitmap.ofList [1, 2, 70000]).isub (RoaringBitmap.ofList [2, 3])).toSet
        = ((RoaringBitmap.ofList [1, 2, 70000]).sub (RoaringBitmap.ofList [2, 3])).toSet) :=
  ⟨by decide, by decide, claim_C1 _ _ (by decide) (by decide)⟩

/-- C2: For every input list of in-range integers (sorted, unsorted, or
produced by any generator), the bitmap constructed from it is
element-equal to the set of its elements, and the constructed bitmap is
well-formed and passes the internal consistency check (key ordering,
non-empty blocks, per-block invariants, cardinality accounting). -/
theorem claim_C2 (xs : List Nat) (h : ∀ x ∈ xs, x < 4294967296) :
    (RoaringBitmap.ofList xs).toSet = (fun v => v ∈ xs) ∧
    (RoaringBitmap.ofList xs).wf ∧
    (RoaringBitmap.ofList xs).checkConsistency = true := by
  have hwf := RoaringBitmap.ofList_wf h
  refine ⟨?_, hwf, RoaringBitmap.checkConsistency_of_wf hwf⟩
  ext v
  show v ∈ (RoaringBitmap.ofList xs).toList ↔ v ∈ xs
  exact RoaringBitmap.mem_ofList h v

theorem claim_C2_witness :
    (∀ x ∈ [70000, 3, 5, 3], x < 4294967296) ∧
    ((RoaringBitmap.ofList [70000, 3, 5, 3]).toSet
        = (fun v => v ∈ [70000, 3, 5, 3]) ∧
      (RoaringBitmap.ofList [70000, 3, 5, 3]).wf ∧
      (RoaringBitmap.ofList [70000, 3, 5, 3]).checkConsistency = true) :=
  ⟨by decide, claim_C2 [70000, 3, 5, 3] (by decide)⟩

/-- C3: For every well-formed bitmap A, serializing A and deserializing
the result succeeds and yields a bitmap element-equal to A; the
deserialized object is an `ImmutableRoaringBitmap`, the immutable bitmap
type. -/
theorem claim_C3 (rb : RoaringBitmap) (h : rb.wf) :
    ∃ irb : ImmutableRoaringBitmap,
      deserialize (serialize rb) = some irb ∧ irb.rb.toSet = rb.toSet :=
  ⟨⟨rb⟩, deserialize_serialize h, rfl⟩

theorem claim_C3_witness :
    (RoaringBitmap.ofList [0, 5, 65536, 70000]).wf ∧
    ∃ irb : ImmutableRoaringBitmap,
      deserialize (serialize (RoaringBitmap.ofList [0, 5, 65536, 70000]))
          = some irb ∧
        irb.rb.toSet = (RoaringBitmap.ofList [0, 5, 65536, 70000]).toSet :=
  ⟨by decide, claim_C3 _ (by decide)⟩

/-- C4: For every well-formed bitmap A and every index i with
0 ≤ i < |A|, select(i) is a member of A and rank(select(i)) = i + 1,
where select(i) is the 0-indexed i-th smallest element and rank(x) is the
number of elements ≤ x. -/
theorem claim_C4 (rb : RoaringBitmap) (h : rb.wf) (i : Nat)
    (hi : i < rb.cardinality) :
    ∃ v, rb.select i = some v ∧ v ∈ rb.toList ∧ rb.rank v = i + 1 := by
  have hi2 : i < rb.toList.length := hi
  refine ⟨rb.toList[i], ?_, List.getElem_mem hi2, ?_⟩
  · rw [RoaringBitmap.select, selectBlocks_eq rb.blocks h i]
    exact List.getElem?_eq_getElem hi2
  · rw [RoaringBitmap.rank, rankBlocks_eq rb.blocks h]
    exact sorted_filter_le_getElem rb.toList (blocksToList_sorted h) i hi2

theorem claim_C4_witness :
    1 < (RoaringBitmap.ofList [10, 20, 70000]).cardinality ∧
    ∃ v, (RoaringBitmap.ofList [10, 20, 70000]).select 1 = some v ∧
      v ∈ (RoaringBitmap.ofList [10, 20, 70000]).toList ∧
      (RoaringBitmap.ofList [10, 20, 70000]).rank v = 1 + 1 :=
  ⟨by decide, claim_C4 _ (by decide) 1 (by decide)⟩

/-- C5: For every well-formed bitmap A and all a ≤ b, clamp(a, b) returns
a bitmap whose element set equals A intersected with [a, b), and any
minimum of the result is ≥ a while any maximum is < b; this holds for
arbitrary a and b, in particular when they fall in the same key, adjacent
keys, or span many keys, and when b is a multiple of 2^16. -/
theorem claim_C5 (rb : RoaringBitmap) (h : rb.wf) (a b : Nat) (hab : a ≤ b) :
    (rb.clamp a b).toSet = rb.toSet ∩ Set.Ico a b ∧
    (∀ m, (rb.clamp a b).min = some m → a ≤ m) ∧
    (∀ M, (rb.clamp a b).max = some M → M < b) := by
  have hmem := RoaringBitmap.mem_clamp h a b
  refine ⟨?_, ?_, ?_⟩
  · ext v
    show v ∈ (rb.clamp a b).toList ↔ v ∈ rb.toSet ∩ Set.Ico a b
    rw [hmem v, Set.mem_inter_iff, Set.mem_Ico]
    exact Iff.rfl
  · intro m hm
    have hmm : m ∈ (rb.clamp a b).toList := List.mem_of_mem_head? hm
    exact ((hmem m).mp hmm).2.1
  · intro M hM
    have hMM : M ∈ (rb.clamp a b).toList := List.mem_of_mem_getLast? hM
    exact ((hmem M).mp hMM).2.2

theorem claim_C5_witness :
    (RoaringBitmap.ofList [1, 2, 3, 80000]).wf ∧ (0 : Nat) ≤ 65536 ∧
    ((RoaringBitmap.ofList [1, 2, 3, 80000]).clamp 0 65536).toSet
        = (RoaringBitmap.ofList [1, 2, 3, 80000]).toSet ∩ Set.Ico 0 65536 ∧
    (∀ m, ((RoaringBitmap.ofList [1, 2, 3, 80000]).clamp 0 65536).min = some m →
      0 ≤ m) ∧
    (∀ M, ((RoaringBitmap.ofList [1, 2, 3, 80000]).clamp 0 65536).max = some M →
      M < 65536) :=
  ⟨by decide, by decide,
    (claim_C5 _ (by decide) 0 65536 (by decide)).1,
    (claim_C5 _ (by decide) 0 65536 (by decide)).2.1,
    (claim_C5 _ (by decide) 0 65536 (by decide)).2.2⟩

/-- C6: For all well-formed bitmaps A and B, intersection_len(A, B) is
the exact cardinality of A ∩ B and union_len(A, B) is the exact
cardinality of A ∪ B; consequently jaccard_dist(A, B) equals
1 − |A ∩ B| / |A ∪ B| when A and B are not both empty. -/
theorem claim_C6 (a b : RoaringBitmap) (ha : a.wf) (hb : b.wf) :
    a.intersection_len b = (a.toSet ∩ b.toSet).ncard ∧
    a.union_len b = (a.toSet ∪ b.toSet).ncard ∧
    ((a.toSet ∪ b.toSet).Nonempty →
      a.jaccard_dist b =
        1 - ((a.toSet ∩ b.toSet).ncard : ℚ) / ((a.toSet ∪ b.toSet).ncard : ℚ)) := by
  have h1 : a.intersection_len b = (a.toSet ∩ b.toSet).ncard := by
    rw [← RoaringBitmap.toSet_and ha hb,
      RoaringBitmap.toSet_ncard (RoaringBitmap.and_wf ha hb),
      RoaringBitmap.intersection_len_eq ha hb]
  have h2 : a.union_len b = (a.toSet ∪ b.toSet).ncard := by
    rw [← RoaringBitmap.toSet_or ha hb,
      RoaringBitmap.toSet_ncard (RoaringBitmap.or_wf ha hb),
      RoaringBitmap.union_len_eq ha hb]
  refine ⟨h1, h2, fun _ => ?_⟩
  rw [RoaringBitmap.jaccard_dist, h1, h2]

theorem claim_C6_witness :
    (RoaringBitmap.ofList [1, 2]).wf ∧ (RoaringBitmap.ofList [2, 3]).wf ∧
    ((RoaringBitmap.ofList [1, 2]).toSet ∪
      (RoaringBitmap.ofList [2, 3]).toSet).Nonempty ∧
    (RoaringBitmap.ofList [1, 2]).jaccard_dist (RoaringBitmap.ofList [2, 3])
      = 1 - (((RoaringBitmap.ofList [1, 2]).toSet ∩
            (RoaringBitmap.ofList [2, 3]).toSet).ncard : ℚ) /
          (((RoaringBitmap.ofList [1, 2]).toSet ∪
            (RoaringBitmap.ofList [2, 3]).toSet).ncard : ℚ) :=
  ⟨by decide, by decide,
    ⟨2, Or.inr (show (2 : Nat) ∈ (RoaringBitmap.ofList [2, 3]).toList by decide)⟩,
    (claim_C6 _ _ (by decide) (by decide)).2.2
      ⟨2, Or.inr (show (2 : Nat) ∈ (RoaringBitmap.ofList [2, 3]).toList by decide)⟩⟩

/-- C7: For every well-formed multi-bitmap M and non-empty list of
ordinals given to intersection(indices, start, stop): if any index points
at a null slot (or out of range) the call returns null; otherwise, if the
intersection of the selected bitmaps restricted to [start, stop) is
empty the call returns null, and if it is non-empty the call returns a
mutable bitmap whose element set is exactly that intersection. -/
theorem claim_C7 (m : MultiRoaringBitmap) (hm : m.wf) (indices : List Nat)
    (start stop : Option Nat) (hne : indices ≠ []) :
    ((∃ i ∈ indices, m.slots.getD i none = none) →
      m.intersection indices start stop = none) ∧
    ((∀ i ∈ indices, m.slots.getD i none ≠ none) →
      (((fun v : Nat => (∀ i ∈ indices, ∃ irb, m.slots.getD i none = some irb ∧
            v ∈ irb.rb.toList) ∧ start.getD 0 ≤ v ∧ v < stop.getD 4294967296)
          = (∅ : Set Nat) →
        m.intersection indices start stop = none) ∧
       (∀ rb2, m.intersection indices start stop = some rb2 →
        rb2.wf ∧ rb2.toSet = (fun v : Nat =>
          (∀ i ∈ indices, ∃ irb, m.slots.getD i none = some irb ∧
            v ∈ irb.rb.toList) ∧ start.getD 0 ≤ v ∧ v < stop.getD 4294967296)) ∧
       ((fun v : Nat => (∀ i ∈ indices, ∃ irb, m.slots.getD i none = some irb ∧
            v ∈ irb.rb.toList) ∧ start.getD 0 ≤ v ∧ v < stop.getD 4294967296)
          ≠ (∅ : Set Nat) →
        ∃ rb2, m.intersection indices start stop = some rb2))) := by
  constructor
  · intro hex
    unfold MultiRoaringBitmap.intersection
    rw [(gatherSlots_eq_none m.slots indices).mpr hex]
  · intro hall
    match hg : gatherSlots m.slots indices with
    | none =>
        rcases (gatherSlots_eq_none m.slots indices).mp hg with ⟨i, hi, hnone⟩
        exact absurd hnone (hall i hi)
    | some [] =>
        obtain ⟨_, _, hempty⟩ := gatherSlots_eq_some m.slots indices [] hg
        exact absurd (hempty.mp rfl) hne
    | some (first :: others) =>
        obtain ⟨hmemslots, hchar2, _⟩ :=
          gatherSlots_eq_some m.slots indices (first :: others) hg
        have hwfall : ∀ r ∈ first :: others, r.wf := by
          intro r hr
          rcases hmemslots r hr with ⟨i, _, hslot⟩
          exact hm _ (getD_eq_some_mem hslot)
        obtain ⟨hFwf, hFmem⟩ := foldl_and_spec others first
          (hwfall first (List.mem_cons_self _ _))
          (fun r hr => hwfall r (List.mem_cons_of_mem _ hr))
        have hCwf : ((others.foldl RoaringBitmap.and first).clamp
            (start.getD 0) (stop.getD 4294967296)).wf :=
          RoaringBitmap.clamp_wf hFwf _ _
        have hSet : ((others.foldl RoaringBitmap.and first).clamp
            (start.getD 0) (stop.getD 4294967296)).toSet
            = (fun v : Nat =>
              (∀ i ∈ indices, ∃ irb, m.slots.getD i none = some irb ∧
                v ∈ irb.rb.toList) ∧
              start.getD 0 ≤ v ∧ v < stop.getD 4294967296) := by
          ext v
          show v ∈ ((others.foldl RoaringBitmap.and first).clamp
            (start.getD 0) (stop.getD 4294967296)).toList ↔ _
          rw [RoaringBitmap.mem_clamp hFwf _ _ v, hFmem v]
          rw [show (v ∈ first.toList ∧ ∀ r ∈ others, v ∈ r.toList) ↔
              (∀ i ∈ indices, ∃ irb, m.slots.getD i none = some irb ∧
                v ∈ irb.rb.toList) from
            (List.forall_mem_cons).symm.trans (hchar2 v)]
          exact Iff.rfl
        have hint : m.intersection indices start stop
            = (if ((others.foldl RoaringBitmap.and first).clamp
                (start.getD 0) (stop.getD 4294967296)).cardinality = 0 then none
              else some ((others.foldl RoaringBitmap.and first).clamp
                (start.getD 0) (stop.getD 4294967296))) := by
          unfold MultiRoaringBitmap.intersection
          rw [hg]
        rw [hint]
        refine ⟨?_, ?_, ?_⟩
        · intro hSempty
          rw [if_pos (RoaringBitmap.cardinality_eq_zero_iff.mpr
            (hSet.trans hSempty))]
        · intro rb2 heq
          by_cases hc : ((others.foldl RoaringBitmap.and first).clamp
              (start.getD 0) (stop.getD 4294967296)).cardinality = 0
          · rw [if_pos hc] at heq
            cases heq
          · rw [if_neg hc] at heq
            injection heq with heq2
            rw [← heq2]
            exact ⟨hCwf, hSet⟩
        · intro hSne
          by_cases hc : ((others.foldl RoaringBitmap.and first).clamp
              (start.getD 0) (stop.getD 4294967296)).cardinality = 0
          · have hCempty := RoaringBitmap.cardinality_eq_zero_iff.mp hc
            rw [hSet] at hCempty
            exact absurd hCempty hSne
          · rw [if_neg hc]
            exact ⟨_, rfl⟩

theorem claim_C7_witness :
    (MultiRoaringBitmap.mk
        [some ⟨RoaringBitmap.ofList [1, 2]⟩, none]).intersection
      [0, 1] none none = none :=
  (claim_C7 _ (by decide) [0, 1] none none (by decide)).1
    ⟨1, by decide, rfl⟩

/-- C8: For every integer v with v < 0 or v ≥ 2^32, add(v) on a
well-formed bitmap raises the out-of-range error, with no mutated bitmap
produced; for every v with 0 ≤ v < 2^32 (including 0 and 2^32 − 1),
add(v) succeeds, returning a well-formed bitmap whose element set is the
old set plus v. -/
theorem claim_C8 (rb : RoaringBitmap) (h : rb.wf) (v : Int) :
    ((v < 0 ∨ 4294967296 ≤ v) →
      rb.add v = Except.error RBError.outOfRange) ∧
    (0 ≤ v → v < 4294967296 →
      ∃ rb2, rb.add v = Except.ok rb2 ∧ rb2.wf ∧
        rb2.toSet = rb.toSet ∪ (fun x => x = v.toNat)) := by
  constructor
  · intro hout
    unfold RoaringBitmap.add
    rw [if_pos hout]
  · intro h0 h32
    unfold RoaringBitmap.add
    rw [if_neg (by omega)]
    have hv : v.toNat < 4294967296 := by omega
    refine ⟨rb.addU v.toNat, rfl, RoaringBitmap.addU_wf h hv, ?_⟩
    ext x
    show x ∈ (rb.addU v.toNat).toList ↔ _
    rw [RoaringBitmap.mem_addU h hv x, Set.mem_union]
    exact Iff.rfl

theorem claim_C8_witness :
    (RoaringBitmap.ofList [5]).add (-1) = Except.error RBError.outOfRange ∧
    ∃ rb2, (RoaringBitmap.ofList [5]).add 4294967295 = Except.ok rb2 ∧
      rb2.wf ∧
      rb2.toSet = (RoaringBitmap.ofList [5]).toSet ∪
        (fun x => x = (4294967295 : Int).toNat) :=
  ⟨(claim_C8 _ (by decide) (-1)).1 (by omega),
   (claim_C8 _ (by decide) 4294967295).2 (by omega) (by omega)⟩

/-- C9 (counterexample to the claim as stated): an equality comparison
between a bitmap and a plain built-in set — a non-bitmap object — does
not raise a type error; it succeeds and returns true, exactly as the
unit tests (test_inittrivial, test_initsorted) require. -/
theorem claim_C9_counterexample :
    (RoaringBitmap.ofList [0, 1, 2, 3, 4]).richcmp
        (PyValue.pyset [0, 1, 2, 3, 4]) CmpOp.eq = Except.ok true := by
  rfl

/-- C9 (amended): comparisons between a bitmap and an unrelated type — a
list or any other non-bitmap, non-set object — raise a type error, as do
order comparisons against anything that is not a bitmap; equality and
inequality against a built-in set do not raise and instead compare
element sets. -/
theorem claim_C9_amended (rb : RoaringBitmap) (other : PyValue)
    (op : CmpOp) :
    ((∀ rb2, other ≠ PyValue.bitmap rb2) →
      (∀ xs, other ≠ PyValue.pyset xs) →
      rb.richcmp other op = Except.error RBError.typeMismatch) ∧
    ((op = CmpOp.lt ∨ op = CmpOp.le ∨ op = CmpOp.gt ∨ op = CmpOp.ge) →
      (∀ rb2, other ≠ PyValue.bitmap rb2) →
      rb.richcmp other op = Except.error RBError.typeMismatch) ∧
    (∀ xs, other = PyValue.pyset xs → (op = CmpOp.eq ∨ op = CmpOp.ne) →
      ∃ bres, rb.richcmp other op = Except.ok bres) := by
  refine ⟨?_, ?_, ?_⟩
  · intro h1 h2
    match other with
    | PyValue.bitmap rb2 => exact absurd rfl (h1 rb2)
    | PyValue.pyset xs => exact absurd rfl (h2 xs)
    | PyValue.pylist xs => cases op <;> rfl
    | PyValue.other => cases op <;> rfl
  · intro hop h1
    match other with
    | PyValue.bitmap rb2 => exact absurd rfl (h1 rb2)
    | PyValue.pyset xs => rcases hop with rfl | rfl | rfl | rfl <;> rfl
    | PyValue.pylist xs => rcases hop with rfl | rfl | rfl | rfl <;> rfl
    | PyValue.other => rcases hop with rfl | rfl | rfl | rfl <;> rfl
  · intro xs hother hop
    subst hother
    rcases hop with rfl | rfl
    · exact ⟨_, rfl⟩
    · exact ⟨_, rfl⟩

theorem claim_C9_witness :
    (RoaringBitmap.ofList [1, 2]).richcmp (PyValue.pylist [1, 2, 3])
        CmpOp.lt = Except.error RBError.typeMismatch :=
  (claim_C9_amended _ _ _).1
    (fun rb2 h => PyValue.noConfusion h)
    (fun xs h => PyValue.noConfusion h)

theorem getLast_of_toList_range {q : RoaringBitmap} {n : Nat}
    (hl : q.toList = List.range (n + 1)) (hne : q.toList ≠ []) :
    q.toList.getLast hne = n := by
  have h2 : (List.range (n + 1)).getLast? = some n := by
    rw [List.range_succ, List.getLast?_concat]
  have h3 := List.getLast_mem_getLast? hne
  rw [Option.mem_def] at h3
  have h5 : q.toList.getLast? = some n := by rw [hl]; exact h2
  rw [h5] at h3
  injection h3 with h4
  exact h4.symm

/-- C10: For every well-formed non-empty bitmap A, pop() removes and
returns the maximum element of A (on the empty bitmap it raises the
value error); in particular two pops on the bitmap holding [0, 131071)
return 131070 and then 131069. -/
theorem claim_C10 (rb : RoaringBitmap) (h : rb.wf) :
    ((rb.toList ≠ []) → ∃ mx rb2, rb.pop = Except.ok (mx, rb2) ∧
      mx ∈ rb.toList ∧ (∀ x ∈ rb.toList, x ≤ mx) ∧ rb2.wf ∧
      rb2.toSet = rb.toSet \ (fun x => x = mx)) ∧
    (rb.toList = [] → rb.pop = Except.error RBError.valueInvalid) ∧
    (∃ m1 r1 m2 r2,
      (RoaringBitmap.ofList (List.range 131071)).pop = Except.ok (m1, r1) ∧
      m1 = 131070 ∧ r1.pop = Except.ok (m2, r2) ∧ m2 = 131069) := by
  have hpopmax : ∀ (q : RoaringBitmap), q.wf → ∀ (hq : q.toList ≠ []),
      q.pop = Except.ok (q.toList.getLast hq, q.discard (q.toList.getLast hq)) := by
    intro q hqwf hq
    have hmax : q.max = some (q.toList.getLast hq) := by
      unfold RoaringBitmap.max
      exact Option.mem_def.mp (List.getLast_mem_getLast? hq)
    unfold RoaringBitmap.pop
    rw [hmax]
  refine ⟨?_, ?_, ?_⟩
  · intro hne
    refine ⟨rb.toList.getLast hne, rb.discard (rb.toList.getLast hne),
      hpopmax rb h hne, List.getLast_mem hne,
      fun x hx => sorted_le_getLast rb.toList (blocksToList_sorted h) x hx hne,
      RoaringBitmap.discard_wf h _, ?_⟩
    ext x
    show x ∈ (rb.discard (rb.toList.getLast hne)).toList ↔ _
    rw [RoaringBitmap.mem_discard h _ x, Set.mem_diff]
    exact Iff.rfl
  · intro hnil
    have hmax : rb.max = none := by
      unfold RoaringBitmap.max
      rw [hnil]
      rfl
    unfold RoaringBitmap.pop
    rw [hmax]
  · have hb1 : ∀ x ∈ List.range 131071, x < 4294967296 := by
      intro x hx
      have := List.mem_range.mp hx
      omega
    have hw1 : (RoaringBitmap.ofList (List.range 131071)).wf :=
      RoaringBitmap.ofList_wf hb1
    have hl1 : (RoaringBitmap.ofList (List.range 131071)).toList
        = List.range 131071 := by
      apply sorted_eq_of_mem_iff (blocksToList_sorted hw1)
        (List.pairwise_lt_range _)
      intro v
      exact RoaringBitmap.mem_ofList hb1 v
    have hne1 : (RoaringBitmap.ofList (List.range 131071)).toList ≠ [] := by
      rw [hl1]
      exact List.length_pos.mp (by rw [List.length_range]; omega)
    have hlast1 : (RoaringBitmap.ofList (List.range 131071)).toList.getLast hne1
        = 131070 :=
      getLast_of_toList_range (hl1.trans (by norm_num)) hne1
    have hpop1 := hpopmax _ hw1 hne1
    rw [hlast1] at hpop1
    -- the state after the first pop
    have hw2 : ((RoaringBitmap.ofList (List.range 131071)).discard 131070).wf :=
      RoaringBitmap.discard_wf hw1 _
    have hl2 : ((RoaringBitmap.ofList (List.range 131071)).discard 131070).toList
        = List.range 131070 := by
      apply sorted_eq_of_mem_iff (blocksToList_sorted hw2)
        (List.pairwise_lt_range _)
      intro v
      show v ∈ ((RoaringBitmap.ofList (List.range 131071)).discard
        131070).toList ↔ _
      rw [RoaringBitmap.mem_discard hw1 131070 v, hl1, List.mem_range,
        List.mem_range]
      omega
    have hne2 : ((RoaringBitmap.ofList (List.range 131071)).discard
        131070).toList ≠ [] := by
      rw [hl2]
      exact List.length_pos.mp (by rw [List.length_range]; omega)
    have hlast2 : ((RoaringBitmap.ofList (List.range 131071)).discard
        131070).toList.getLast hne2 = 131069 :=
      getLast_of_toList_range (hl2.trans (by norm_num)) hne2
    have hpop2 := hpopmax _ hw2 hne2
    rw [hlast2] at hpop2
    exact ⟨131070, _, 131069, _, hpop1, rfl, hpop2, rfl⟩

theorem claim_C10_witness :
    (RoaringBitmap.ofList [3, 70000]).toList ≠ [] ∧
    ∃ mx rb2, (RoaringBitmap.ofList [3, 70000]).pop = Except.ok (mx, rb2) ∧
      mx ∈ (RoaringBitmap.ofList [3, 70000]).toList ∧
      (∀ x ∈ (RoaringBitmap.ofList [3, 70000]).toList, x ≤ mx) ∧ rb2.wf ∧
      rb2.toSet = (RoaringBitmap.ofList [3, 70000]).toSet \ (fun x => x = mx) :=
  ⟨by decide, (claim_C10 _ (by decide)).1 (by decide)⟩

end Roaring
